import Mathlib

/-!
Verification of the territory-scoring module of `variant-go-server`
(`src/shared/src/states/scoring.rs`).

The board/group primitive library (`Board`, `Group`, `find_groups`, neighbor
enumeration) lives outside the provided sources; those primitives are modelled
from the specification's interface description (spec section 6), as noted on
each definition.  Everything else is a direct shallow embedding of
`scoring.rs`.

Colors are plain naturals (`0` = empty/neutral, `1..N` = team colors),
coordinates are pairs of naturals, boards are flattened row-major lists.
-/

namespace Scoring

/-- A board coordinate `(x, y)`. -/
abbrev Point : Type := Nat × Nat

/-- Modelled from the spec: a fixed-size grid of color values with width,
height and a toroidal flag controlling whether neighbor lookup wraps.
Color `0` denotes an empty point. -/
structure Board where
  width : Nat
  height : Nat
  toroidal : Bool
  points : List Nat
  deriving DecidableEq, Repr

/-- Modelled from the spec: construct an all-empty board of the given
dimensions and wrap mode. -/
def Board.empty (width height : Nat) (toroidal : Bool) : Board :=
  ⟨width, height, toroidal, List.replicate (width * height) 0⟩

/-- A point addresses a cell iff both coordinates are in range. -/
def Board.valid (b : Board) (p : Point) : Prop :=
  p.1 < b.width ∧ p.2 < b.height

instance (b : Board) (p : Point) : Decidable (b.valid p) := by
  unfold Board.valid; infer_instance

/-- Row-major index of a coordinate. -/
def Board.coordIdx (b : Board) (p : Point) : Nat :=
  p.2 * b.width + p.1

/-- Modelled from the spec: read a point's color (missing board primitive
`get_point`).  Out-of-range reads default to the empty color; the flood
fill only ever reads valid points. -/
def Board.get_point (b : Board) (p : Point) : Nat :=
  (b.points[b.coordIdx p]?).getD 0

/-- Modelled from the spec: write a point's color (missing board primitive
`point_mut`). -/
def Board.set_point (b : Board) (p : Point) (c : Nat) : Board :=
  { b with points := b.points.set (b.coordIdx p) c }

/-- Modelled from the spec: inverse of the row-major index, returning `none`
for indices outside the grid (missing board primitive `idx_to_coord`). -/
def Board.idx_to_coord (b : Board) (idx : Nat) : Option Point :=
  if idx < b.width * b.height then some (idx % b.width, idx / b.width) else none

/-- Modelled from the spec: enumerate a point's four orthogonal neighbors,
honoring the toroidal wraparound setting (missing board primitive
`surrounding_points`). -/
def Board.surrounding_points (b : Board) (p : Point) : List Point :=
  if b.toroidal then
    [((p.1 + b.width - 1) % b.width, p.2), ((p.1 + 1) % b.width, p.2),
     (p.1, (p.2 + b.height - 1) % b.height), (p.1, (p.2 + 1) % b.height)]
  else
    (if 0 < p.1 then [(p.1 - 1, p.2)] else []) ++
    (if p.1 + 1 < b.width then [(p.1 + 1, p.2)] else []) ++
    (if 0 < p.2 then [(p.1, p.2 - 1)] else []) ++
    (if p.2 + 1 < b.height then [(p.1, p.2 + 1)] else [])

/-- A maximal connected set of same-colored stones with its owner and a
disputable alive flag (`Group` in the source). -/
structure Group where
  points : List Point
  team : Nat
  alive : Bool
  deriving DecidableEq, Repr

/-- First phase of `score_board`: a fresh empty board with every living
group's team color stamped onto its points (dead groups are vacated). -/
def stamp_groups (board : Board) (groups : List Group) : Board :=
  groups.foldl
    (fun b g =>
      if g.alive then g.points.foldl (fun b2 p => b2.set_point p g.team) b else b)
    (Board.empty board.width board.height board.toroidal)

/-- The collision accumulator of the flood fill (`SeenTeams` in the source). -/
inductive SeenTeams where
  | zero : SeenTeams
  | one : Nat → SeenTeams
  | many : SeenTeams
  deriving DecidableEq, Repr

/-- One `collisions` update of the flood fill, for a non-empty color. -/
def SeenTeams.collide : SeenTeams → Nat → SeenTeams
  | .zero, c => .one c
  | .one x, c => if x = c then .one x else .many
  | .many, _ => .many

/-- The inner `for point in board.surrounding_points(point)` loop of the
flood fill: visit each neighbor once, pushing fresh empty neighbors onto the
queue (and retaining them out of the candidate list) and recording the colors
of fresh stone neighbors. -/
def visitNbrs (board : Board) :
    List Point → Finset Point → List Point → List Point → SeenTeams →
    Finset Point × List Point × List Point × SeenTeams
  | [], seen, stack, legal, col => (seen, stack, legal, col)
  | r :: rest, seen, stack, legal, col =>
    if r ∈ seen then visitNbrs board rest seen stack legal col
    else
      if board.get_point r = 0 then
        visitNbrs board rest (insert r seen) (stack ++ [r])
          (legal.filter (fun x => x ≠ r)) col
      else
        visitNbrs board rest (insert r seen) stack legal
          (col.collide (board.get_point r))

/-- The inner `while let Some(point) = stack.pop_front()` loop of the flood
fill.  The fuel is an artifact of the embedding; `score_board` supplies
enough fuel for the loop to run to completion (see `bfsLoop_spec`). -/
def bfsLoop (board : Board) :
    Nat → List Point → Finset Point → List Point → List Point → SeenTeams →
    List Point × List Point × SeenTeams × Finset Point
  | 0, _, seen, marked, legal, col => (marked, legal, col, seen)
  | _ + 1, [], seen, marked, legal, col => (marked, legal, col, seen)
  | fuel + 1, q :: stack, seen, marked, legal, col =>
    let s := visitNbrs board (board.surrounding_points q) seen stack legal col
    bfsLoop board fuel s.2.1 s.1 (marked ++ [q]) s.2.2.1 s.2.2.2

/-- The initial `legal_points` candidate list: coordinates of all empty
points, in board index order. -/
def initialLegal (b : Board) : List Point :=
  b.points.enum.filterMap
    (fun ic => if ic.2 = 0 then b.idx_to_coord ic.1 else none)

/-- The outer `while let Some(point) = legal_points.pop()` loop of
`score_board`: repeatedly pop a candidate from the end of the list, flood
fill its region, and if the region touched exactly one color, stamp that
color onto the whole region.  The fuel equals the initial candidate count at
the call site, which suffices because every iteration strictly shrinks the
candidate list. -/
def scoreLoop : Nat → Board → List Point → Board
  | 0, b, _ => b
  | fuel + 1, b, legal =>
    match legal.getLast? with
    | none => b
    | some p =>
      let res := bfsLoop b (2 * b.width * b.height + 1) [p] ∅ []
        legal.dropLast .zero
      let b2 :=
        match res.2.2.1 with
        | .one c => res.1.foldl (fun bb q => bb.set_point q c) b
        | _ => b
      scoreLoop fuel b2 res.2.1

/-- `score_board` from `scoring.rs`: fill in fully surrounded empty regions. -/
def score_board (board : Board) (groups : List Group) : Board :=
  let b := stamp_groups board groups
  scoreLoop (initialLegal b).length b (initialLegal b)

/-- The set of valid points of a board, as a finset. -/
def validFinset (b : Board) : Finset Point :=
  Finset.range b.width ×ˢ Finset.range b.height

/-- Spec-side adjacency between two empty valid points, via the board's
neighbor relation. -/
def emptyAdj (b : Board) (p q : Point) : Prop :=
  b.valid p ∧ b.valid q ∧ b.get_point p = 0 ∧ b.get_point q = 0 ∧
    q ∈ b.surrounding_points p

/-- Spec-side connectivity: the maximal connected empty region containing a
point is its reachability class under `emptyAdj`. -/
def reach (b : Board) (p q : Point) : Prop :=
  Relation.ReflTransGen (emptyAdj b) p q

/-- The set of distinct non-empty team colors carried by the points
bordering the connected empty region of `p`. -/
def borderColors (b : Board) (p : Point) : Set Nat :=
  setOf (fun c => c ≠ 0 ∧ ∃ q r, reach b p q ∧ r ∈ b.surrounding_points q ∧
    b.get_point r = c)

/-- The distinct stone colors among a finite set of visited points. -/
def stoneColors (b : Board) (s : Finset Point) : Set Nat :=
  setOf (fun c => c ≠ 0 ∧ ∃ r ∈ s, b.get_point r = c)

/-- The meaning of the collision accumulator relative to a color set. -/
def colMatches (S : Set Nat) : SeenTeams → Prop
  | .zero => S = ∅
  | .one c => S = {c}
  | .many => ∃ c1 c2, c1 ∈ S ∧ c2 ∈ S ∧ c1 ≠ c2

/-- The classification the single-color-border rule demands of the final
board at an empty point of the stamped board `S`. -/
def territoryAnswer (S final : Board) (q : Point) : Prop :=
  (∀ t, borderColors S q = {t} → final.get_point q = t)
  ∧ (borderColors S q = ∅ → final.get_point q = 0)
  ∧ ((∃ t1 t2, t1 ∈ borderColors S q ∧ t2 ∈ borderColors S q ∧ t1 ≠ t2) →
      final.get_point q = 0)

/-- What one full run of the inner flood-fill loop establishes, relative to
the start point `p0` and the candidate list `legal0` it was entered with:
the marked list is exactly the connected empty region of `p0`, the collision
accumulator reflects the stone colors seen, the candidate list is filtered
by the visited set, and the visited set ties regions to their borders. -/
def BfsPost (b : Board) (p0 : Point) (legal0 marked legal : List Point)
    (col : SeenTeams) (seen : Finset Point) : Prop :=
  (∀ q ∈ marked, reach b p0 q)
  ∧ (∀ q, reach b p0 q → q ∈ marked)
  ∧ colMatches (stoneColors b seen) col
  ∧ legal = legal0.filter (fun q => q ∉ seen)
  ∧ (∀ r ∈ seen, b.get_point r = 0 → r ∈ marked)
  ∧ (∀ r ∈ seen, ∃ q ∈ marked, r ∈ b.surrounding_points q)
  ∧ (∀ q ∈ marked, ∀ r ∈ b.surrounding_points q, r ∈ seen)
  ∧ (∀ q ∈ marked, q ∈ seen ∨ q = p0)

/-- A seat: its optionally assigned player and its resignation flag (the
fields of the external `Seat` type that the scoring phase reads). -/
structure Seat where
  player : Option Nat
  resigned : Bool
  deriving DecidableEq, Repr

/-- The fields of the external `SharedState` that the scoring phase touches:
the current board, the seat list, and the baseline score vector
(`shared.points`). -/
structure SharedState where
  board : Board
  seats : List Seat
  points : List Int
  deriving DecidableEq, Repr

/-- The scoring-phase state (`ScoringState` in the source). -/
structure ScoringState where
  groups : List Group
  points : Board
  scores : List Int
  players_accepted : List Bool
  deriving DecidableEq, Repr

/-- The game-state variant the scoring phase can transition into
(`GameState::Done` carrying the scoring snapshot). -/
inductive GameState where
  | done : ScoringState → GameState
  deriving DecidableEq, Repr

/-- The transition directive returned to the dispatcher (`ActionChange`). -/
inductive ActionChange where
  | none : ActionChange
  | swapState : GameState → ActionChange
  | popState : ActionChange
  deriving DecidableEq, Repr

/-- Modelled from the spec: the error taxonomy of section 7.  The scoring
code under verification never constructs an error. -/
inductive MakeActionError where
  | pointOutOfRange : MakeActionError
  | noGroupAtPoint : MakeActionError
  | unknownPlayer : MakeActionError
  deriving DecidableEq, Repr

/-- `MakeActionResult` from the source (`Result<ActionChange, _>`). -/
abbrev MakeActionResult := Except MakeActionError ActionChange

/-- The player actions the scoring phase accepts (`ActionKind`). -/
inductive ActionKind where
  | place : Nat → Nat → ActionKind
  | pass : ActionKind
  | cancel : ActionKind
  | resign : ActionKind
  deriving DecidableEq, Repr

/-- In-place update of one list element (the `iter_mut` single-element
mutation of the source); indices past the end leave the list unchanged. -/
def modifyAt {α : Type} : List α → Nat → (α → α) → List α
  | [], _, _ => []
  | a :: l, 0, f => f a :: l
  | a :: l, i + 1, f => a :: modifyAt l i f

/-- Add 2 to the entry at index `i` of a score vector (`scores[i] += 2`);
an out-of-range index (which would panic in the source) leaves the vector
unchanged. -/
def bumpScore (s : List Int) (i : Nat) : List Int :=
  s.set i (s.getD i 0 + 2)

/-- The score accumulation loop over `points.points`: add 2 per point to the
team owning that point's resolved (non-empty) color. -/
def addTerritory (base : List Int) (b : Board) : List Int :=
  b.points.foldl (fun s c => if c ≠ 0 then bumpScore s (c - 1) else s) base

/-- The `seats.iter().enumerate().filter(player == pid)` traversal of
`make_action_pass` / `make_action_resign`, setting the acceptance flag of
every seat held by `pid`. -/
def markAcceptedGo (pid : Nat) : List Seat → Nat → List Bool → List Bool
  | [], _, acc => acc
  | s :: rest, i, acc =>
    markAcceptedGo pid rest (i + 1)
      (if s.player = some pid then acc.set i true else acc)

/-- Mark acceptance for every seat controlled by `pid`. -/
def markAccepted (acc : List Bool) (seats : List Seat) (pid : Nat) : List Bool :=
  markAcceptedGo pid seats 0 acc

/-- Modelled from the spec: flood fill of one maximal connected same-colored
stone group (used only by the missing primitive `find_groups`; no claim
depends on its internals). -/
def sameColorFlood (b : Board) (c : Nat) :
    Nat → List Point → Finset Point → List Point → List Point
  | 0, _, _, acc => acc
  | _ + 1, [], _, acc => acc
  | fuel + 1, p :: stack, seenf, acc =>
    if p ∈ seenf then sameColorFlood b c fuel stack seenf acc
    else
      sameColorFlood b c fuel
        ((b.surrounding_points p).filter (fun r => b.get_point r = c) ++ stack)
        (insert p seenf) (acc ++ [p])

/-- All non-empty valid points of a board, in index order. -/
def allStones (b : Board) : List Point :=
  (List.range (b.width * b.height)).filterMap
    (fun i =>
      match b.idx_to_coord i with
      | some q => if b.get_point q ≠ 0 then some q else none
      | none => none)

/-- Modelled from the spec: derive the list of connected stone groups from a
board (missing primitive `find_groups`); every group starts alive. -/
def find_groups (board : Board) : List Group :=
  ((allStones board).foldl
    (fun (acc : List Group × Finset Point) p =>
      if p ∈ acc.2 then acc
      else
        let comp := sameColorFlood board (board.get_point p)
          (5 * board.width * board.height + 5) [p] ∅ []
        (acc.1 ++ [⟨comp, board.get_point p, true⟩],
         comp.foldl (fun s r => insert r s) acc.2))
    ([], ∅)).1

/-- `ScoringState::new`: derive groups, score the board, accumulate the
territory bonus onto the passed baseline, seed acceptance from resignation. -/
def ScoringState.new (board : Board) (seats : List Seat) (scores : List Int) :
    ScoringState :=
  let groups := find_groups board
  let points := score_board board groups
  { groups := groups
    points := points
    scores := addTerritory scores points
    players_accepted := seats.map (fun s => s.resigned) }

/-- `make_action_place`: toggle the alive flag of the group containing the
point (first match), rescore the board and scores, and reset every seat's
acceptance to its resignation status; a point in no group is a no-op. -/
def make_action_place (st : ScoringState) (shared : SharedState) (point : Point) :
    ScoringState × SharedState × MakeActionResult :=
  match st.groups.findIdx? (fun g => point ∈ g.points) with
  | none => (st, shared, .ok .none)
  | some i =>
    let groups := modifyAt st.groups i (fun g => { g with alive := !g.alive })
    let points := score_board shared.board groups
    let scores := addTerritory shared.points points
    let accepted := (List.range st.players_accepted.length).map
      (fun idx => ((shared.seats[idx]?).getD ⟨none, false⟩).resigned)
    ({ groups := groups, points := points, scores := scores,
       players_accepted := accepted }, shared, .ok .none)

/-- `make_action_pass`: mark acceptance for every seat held by the player;
transition to Done iff every seat has accepted afterwards. -/
def make_action_pass (st : ScoringState) (shared : SharedState) (pid : Nat) :
    ScoringState × SharedState × MakeActionResult :=
  let accepted := markAccepted st.players_accepted shared.seats pid
  let st2 := { st with players_accepted := accepted }
  if accepted.all (fun x => x) then
    (st2, shared, .ok (.swapState (.done st2)))
  else
    (st2, shared, .ok .none)

/-- `make_action_resign`: permanently set `resigned` on every seat held by
the player, mark those seats accepted, and run the same unanimity check. -/
def make_action_resign (st : ScoringState) (shared : SharedState) (pid : Nat) :
    ScoringState × SharedState × MakeActionResult :=
  let seats2 := shared.seats.map
    (fun s => if s.player = some pid then { s with resigned := true } else s)
  let accepted := markAccepted st.players_accepted shared.seats pid
  let st2 := { st with players_accepted := accepted }
  let shared2 := { shared with seats := seats2 }
  if accepted.all (fun x => x) then
    (st2, shared2, .ok (.swapState (.done st2)))
  else
    (st2, shared2, .ok .none)

/-- `make_action`: the single dispatch entry point of the scoring phase. -/
def make_action (st : ScoringState) (shared : SharedState) (pid : Nat) :
    ActionKind → ScoringState × SharedState × MakeActionResult
  | .place x y => make_action_place st shared (x, y)
  | .pass => make_action_pass st shared pid
  | .cancel => (st, shared, .ok .popState)
  | .resign => make_action_resign st shared pid

/-- Sequential dispatch of a list of `(player, action)` pairs, threading the
mutable scoring state and shared state. -/
def runActions : ScoringState → SharedState → List (Nat × ActionKind) →
    ScoringState × SharedState
  | st, shared, [] => (st, shared)
  | st, shared, (pid, a) :: rest =>
    let r := make_action st shared pid a
    runActions r.1 r.2.1 rest

/-! ## Lemmas about acceptance marking -/

theorem markAcceptedGo_length (pid : Nat) (seats : List Seat) :
    ∀ i0 acc, (markAcceptedGo pid seats i0 acc).length = acc.length := by
  induction seats with
  | nil => intro i0 acc; rfl
  | cons s rest ih =>
    intro i0 acc
    simp only [markAcceptedGo]
    rw [ih]
    by_cases h : s.player = some pid <;> simp [h]

theorem markAcceptedGo_miss (pid : Nat) (seats : List Seat) :
    ∀ i0 acc j, (∀ k s, seats[k]? = some s → s.player = some pid → j ≠ i0 + k) →
    (markAcceptedGo pid seats i0 acc)[j]? = acc[j]? := by
  induction seats with
  | nil => intro i0 acc j _; rfl
  | cons s rest ih =>
    intro i0 acc j hmiss
    simp only [markAcceptedGo]
    rw [ih]
    · by_cases h : s.player = some pid
      · simp only [h, if_pos]
        have hji : j ≠ i0 := by
          have := hmiss 0 s (by simp) h
          omega
        rw [List.getElem?_set_ne (fun he => hji he.symm)]
      · simp [h]
    · intro k s2 hk hp
      have := hmiss (k + 1) s2 (by simpa using hk) hp
      omega

theorem markAcceptedGo_hit (pid : Nat) (seats : List Seat) :
    ∀ i0 acc k s, seats[k]? = some s → s.player = some pid →
    i0 + k < acc.length →
    (markAcceptedGo pid seats i0 acc)[i0 + k]? = some true := by
  induction seats with
  | nil => intro i0 acc k s hk; simp at hk
  | cons s1 rest ih =>
    intro i0 acc k s hk hp hlen
    match k with
    | 0 =>
      simp only [List.getElem?_cons_zero, Option.some.injEq] at hk
      subst hk
      simp only [markAcceptedGo, hp, if_pos]
      by_cases hrest : ∃ k2 s2, rest[k2]? = some s2 ∧ s2.player = some pid ∧
          i0 + 0 = i0 + 1 + k2
      · exfalso
        obtain ⟨k2, s2, _, _, habs⟩ := hrest
        omega
      · rw [markAcceptedGo_miss]
        · have hi0 : i0 < acc.length := by omega
          simp [List.getElem?_set, hi0]
        · intro k2 s2 hk2 hp2 heq
          exact hrest ⟨k2, s2, hk2, hp2, by omega⟩
    | k2 + 1 =>
      simp only [List.getElem?_cons_succ] at hk
      simp only [markAcceptedGo]
      have h2 : i0 + (k2 + 1) = (i0 + 1) + k2 := by omega
      rw [h2]
      apply ih (i0 + 1) _ k2 s hk hp
      by_cases h : s1.player = some pid <;> simp [h] <;> omega

theorem markAcceptedGo_true_mono (pid : Nat) (seats : List Seat) :
    ∀ (i0 : Nat) (acc : List Bool) (j : Nat), acc[j]? = some true →
    (markAcceptedGo pid seats i0 acc)[j]? = some true := by
  induction seats with
  | nil => intro i0 acc j h; simpa [markAcceptedGo] using h
  | cons s rest ih =>
    intro i0 acc j h
    simp only [markAcceptedGo]
    apply ih
    by_cases hp : s.player = some pid
    · simp only [hp, if_pos]
      by_cases hj : i0 = j
      · subst hj
        have hlen : i0 < acc.length := by
          by_contra hc
          rw [List.getElem?_eq_none (by omega)] at h
          simp at h
        simp [List.getElem?_set, hlen]
      · rw [List.getElem?_set_ne hj]; exact h
    · simp [hp, h]

theorem markAccepted_no_match (acc : List Bool) (seats : List Seat) (pid : Nat)
    (h : ∀ s ∈ seats, s.player ≠ some pid) :
    markAccepted acc seats pid = acc := by
  apply List.ext_getElem?
  intro j
  apply markAcceptedGo_miss
  intro k s hk hp _
  exact h s (List.getElem?_mem hk) hp

/-! ## No-op Place lemmas -/

theorem place_no_group (st : ScoringState) (shared : SharedState) (point : Point)
    (h : ∀ g ∈ st.groups, point ∉ g.points) :
    make_action_place st shared point = (st, shared, .ok .none) := by
  have hnone : st.groups.findIdx? (fun g => decide (point ∈ g.points)) = none := by
    rw [List.findIdx?_eq_none_iff]
    intro g hg
    simpa using h g hg
  simp [make_action_place, hnone]

theorem make_action_pass_fst (st : ScoringState) (sh : SharedState) (pid : Nat) :
    (make_action_pass st sh pid).1 =
      { st with players_accepted := markAccepted st.players_accepted sh.seats pid } := by
  unfold make_action_pass
  by_cases h : (markAccepted st.players_accepted sh.seats pid).all (fun v => v) <;>
    simp [h]

theorem make_action_pass_shared (st : ScoringState) (sh : SharedState) (pid : Nat) :
    (make_action_pass st sh pid).2.1 = sh := by
  unfold make_action_pass
  by_cases h : (markAccepted st.players_accepted sh.seats pid).all (fun v => v) <;>
    simp [h]

theorem make_action_resign_fst (st : ScoringState) (sh : SharedState) (pid : Nat) :
    (make_action_resign st sh pid).1 =
      { st with players_accepted := markAccepted st.players_accepted sh.seats pid } := by
  unfold make_action_resign
  by_cases h : (markAccepted st.players_accepted sh.seats pid).all (fun v => v) <;>
    simp [h]

theorem make_action_resign_shared (st : ScoringState) (sh : SharedState) (pid : Nat) :
    (make_action_resign st sh pid).2.1 =
      { sh with
        seats := sh.seats.map
          (fun s => if s.player = some pid then { s with resigned := true } else s) } := by
  unfold make_action_resign
  by_cases h : (markAccepted st.players_accepted sh.seats pid).all (fun v => v) <;>
    simp [h]

/-! ## C9: determinism and purity of the scorer -/

/-- C9: `score_board` is a pure deterministic function of its two inputs:
two calls on the same (board, groups) pair return identical boards.  (In the
shallow embedding the function cannot mutate its arguments; the Rust
signature takes both by shared reference.) -/
theorem score_board_deterministic (b1 b2 : Board) (g1 g2 : List Group)
    (hb : b1 = b2) (hg : g1 = g2) : score_board b1 g1 = score_board b2 g2 := by
  rw [hb, hg]

theorem score_board_deterministic_witness :
    score_board ⟨4, 1, true, [1, 0, 0, 0]⟩ [⟨[(0, 0)], 1, true⟩] =
      score_board ⟨4, 1, true, [1, 0, 0, 0]⟩ [⟨[(0, 0)], 1, true⟩] :=
  score_board_deterministic _ _ _ _ rfl rfl

/-! ## C6: groupless Place is a total no-op -/

/-- C6: a Place action on a point contained in no group returns the
no-change directive, leaves the scoring state and the shared state entirely
unchanged, and raises no error across the phase boundary. -/
theorem place_groupless_noop (st : ScoringState) (sh : SharedState) (pid x y : Nat)
    (h : ∀ g ∈ st.groups, (x, y) ∉ g.points) :
    make_action st sh pid (.place x y) = (st, sh, .ok .none) := by
  simpa [make_action] using place_no_group st sh (x, y) h

theorem place_groupless_noop_witness :
    make_action ⟨[⟨[(0, 0)], 1, true⟩], ⟨2, 1, false, [1, 0]⟩, [2], []⟩
        ⟨⟨2, 1, false, [1, 0]⟩, [], []⟩ 0 (.place 1 0) =
      (⟨[⟨[(0, 0)], 1, true⟩], ⟨2, 1, false, [1, 0]⟩, [2], []⟩,
        ⟨⟨2, 1, false, [1, 0]⟩, [], []⟩, .ok .none) :=
  place_groupless_noop _ _ 0 1 0 (by decide)

/-! ## C5: out-of-range Place is not rejected distinctly -/

/-- C5 counterexample: on a concrete state, a Place at the out-of-range
coordinate (5,5) produces exactly the same outcome, `Ok(None)` with nothing
mutated, as a Place at the valid but group-less point (1,0); no error kind
distinguishes the two, refuting the claimed distinct rejection. -/
theorem place_out_of_range_not_distinct_cex :
    make_action ⟨[⟨[(0, 0)], 1, true⟩], ⟨2, 1, false, [1, 0]⟩, [2], []⟩
        ⟨⟨2, 1, false, [1, 0]⟩, [], []⟩ 0 (.place 5 5) =
      (⟨[⟨[(0, 0)], 1, true⟩], ⟨2, 1, false, [1, 0]⟩, [2], []⟩,
        ⟨⟨2, 1, false, [1, 0]⟩, [], []⟩, .ok .none)
    ∧ make_action ⟨[⟨[(0, 0)], 1, true⟩], ⟨2, 1, false, [1, 0]⟩, [2], []⟩
        ⟨⟨2, 1, false, [1, 0]⟩, [], []⟩ 0 (.place 1 0) =
      (⟨[⟨[(0, 0)], 1, true⟩], ⟨2, 1, false, [1, 0]⟩, [2], []⟩,
        ⟨⟨2, 1, false, [1, 0]⟩, [], []⟩, .ok .none)
    ∧ ¬ (⟨2, 1, false, [1, 0]⟩ : Board).valid (5, 5)
    ∧ (⟨2, 1, false, [1, 0]⟩ : Board).valid (1, 0) := by
  refine ⟨rfl, rfl, by decide, by decide⟩

/-- C5 (amended): a Place whose coordinate is out of range takes the same
benign no-op path as a valid group-less point: the call returns `Ok(None)`
with the state unchanged, and no distinct error kind exists for it. -/
theorem place_out_of_range_noop (st : ScoringState) (sh : SharedState) (pid x y : Nat)
    (_hoor : ¬ sh.board.valid (x, y)) (h : ∀ g ∈ st.groups, (x, y) ∉ g.points) :
    make_action st sh pid (.place x y) = (st, sh, .ok .none) := by
  simpa [make_action] using place_no_group st sh (x, y) h

theorem place_out_of_range_noop_witness :
    make_action ⟨[⟨[(0, 0)], 1, true⟩], ⟨2, 1, false, [1, 0]⟩, [2], []⟩
        ⟨⟨2, 1, false, [1, 0]⟩, [], []⟩ 0 (.place 5 5) =
      (⟨[⟨[(0, 0)], 1, true⟩], ⟨2, 1, false, [1, 0]⟩, [2], []⟩,
        ⟨⟨2, 1, false, [1, 0]⟩, [], []⟩, .ok .none) :=
  place_out_of_range_noop _ _ 0 5 5 (by decide) (by decide)

/-! ## C2: which actions produce the Done transition -/

/-- C2 counterexample: a concrete state — a 1×1 board with one stone group
and a single resigned seat — on which a Place action genuinely mutates the
state (the group's alive flag is toggled, the board is rescored, and the
acceptance reset leaves `players_accepted` true for every seat), yet the
returned directive is the no-change directive rather than a Done transition;
the same holds vacuously for a group-less Place with an empty seat list.
This refutes the claimed biconditional for the Place action kind. -/
theorem make_action_done_iff_cex :
    ((make_action ⟨[⟨[(0, 0)], 1, true⟩], ⟨1, 1, false, [1]⟩, [2], [false]⟩
        ⟨⟨1, 1, false, [1]⟩, [⟨some 1, true⟩], [0]⟩ 1
        (.place 0 0)).1.players_accepted.all (fun v => v) = true)
    ∧ (make_action ⟨[⟨[(0, 0)], 1, true⟩], ⟨1, 1, false, [1]⟩, [2], [false]⟩
        ⟨⟨1, 1, false, [1]⟩, [⟨some 1, true⟩], [0]⟩ 1 (.place 0 0)).2.2 =
      .ok .none
    ∧ ((make_action ⟨[], ⟨1, 1, false, [0]⟩, [], []⟩ ⟨⟨1, 1, false, [0]⟩, [], []⟩
        0 (.place 0 0)).1.players_accepted.all (fun v => v) = true)
    ∧ (make_action ⟨[], ⟨1, 1, false, [0]⟩, [], []⟩ ⟨⟨1, 1, false, [0]⟩, [], []⟩
        0 (.place 0 0)).2.2 = .ok .none
    ∧ ∀ g : GameState, ActionChange.none ≠ ActionChange.swapState g :=
  ⟨by decide, rfl, by decide, rfl, fun g h => ActionChange.noConfusion h⟩

/-- C2 (amended): the Pass and Resign actions produce the Done transition
(a SwapState carrying the mutated scoring snapshot) exactly when, after
their mutations, `players_accepted` is true for every seat, and produce the
explicit no-change directive otherwise; the Place action always returns the
no-change directive (even if every seat counts as accepted after its
mutations), and Cancel always returns the pop directive. -/
theorem make_action_done_iff (st : ScoringState) (sh : SharedState) (pid : Nat) :
    ((make_action st sh pid .pass).2.2 =
        .ok (.swapState (.done (make_action st sh pid .pass).1)) ↔
      (make_action st sh pid .pass).1.players_accepted.all (fun v => v) = true)
    ∧ ((make_action st sh pid .resign).2.2 =
        .ok (.swapState (.done (make_action st sh pid .resign).1)) ↔
      (make_action st sh pid .resign).1.players_accepted.all (fun v => v) = true)
    ∧ (∀ x y, (make_action st sh pid (.place x y)).2.2 = .ok .none)
    ∧ (make_action st sh pid .cancel).2.2 = .ok .popState
    ∧ ((make_action st sh pid .pass).1.players_accepted.all (fun v => v) = false →
      (make_action st sh pid .pass).2.2 = .ok .none)
    ∧ ((make_action st sh pid .resign).1.players_accepted.all (fun v => v) = false →
      (make_action st sh pid .resign).2.2 = .ok .none) := by
  refine ⟨?_, ?_, ?_, rfl, ?_, ?_⟩
  · simp only [make_action]
    unfold make_action_pass
    by_cases h : (markAccepted st.players_accepted sh.seats pid).all (fun x => x) = true
    · rw [if_pos h]
      exact ⟨fun _ => h, fun _ => rfl⟩
    · rw [if_neg h]
      exact ⟨fun hc => absurd hc (by simp), fun hc => absurd hc h⟩
  · simp only [make_action]
    unfold make_action_resign
    by_cases h : (markAccepted st.players_accepted sh.seats pid).all (fun x => x) = true
    · rw [if_pos h]
      exact ⟨fun _ => h, fun _ => rfl⟩
    · rw [if_neg h]
      exact ⟨fun hc => absurd hc (by simp), fun hc => absurd hc h⟩
  · intro x y
    simp only [make_action]
    unfold make_action_place
    cases hf : st.groups.findIdx? (fun g => decide ((x, y) ∈ g.points)) <;> simp [hf]
  · simp only [make_action]
    unfold make_action_pass
    by_cases h : (markAccepted st.players_accepted sh.seats pid).all (fun x => x) = true
    · rw [if_pos h]
      intro hfalse
      have h2 : (markAccepted st.players_accepted sh.seats pid).all
          (fun x => x) = false := hfalse
      exact absurd (h.symm.trans h2) (by decide)
    · rw [if_neg h]
      intro _
      rfl
  · simp only [make_action]
    unfold make_action_resign
    by_cases h : (markAccepted st.players_accepted sh.seats pid).all (fun x => x) = true
    · rw [if_pos h]
      intro hfalse
      have h2 : (markAccepted st.players_accepted sh.seats pid).all
          (fun x => x) = false := hfalse
      exact absurd (h.symm.trans h2) (by decide)
    · rw [if_neg h]
      intro _
      rfl

/-! ## C10: the unanimity check runs even for a seatless player -/

/-- C10: a Pass or Resign from a player controlling no seat is not an
unconditional no-op: whenever every entry of `players_accepted` is already
true (in particular vacuously, for an empty seat list), the call still
returns the Done transition. -/
theorem unanimity_check_runs_for_seatless (st : ScoringState) (sh : SharedState)
    (pid : Nat) (hnone : ∀ s ∈ sh.seats, s.player ≠ some pid)
    (hall : st.players_accepted.all (fun v => v) = true) :
    (make_action st sh pid .pass).2.2 =
      .ok (.swapState (.done (make_action st sh pid .pass).1))
    ∧ (make_action st sh pid .resign).2.2 =
      .ok (.swapState (.done (make_action st sh pid .resign).1)) := by
  have hm : markAccepted st.players_accepted sh.seats pid = st.players_accepted :=
    markAccepted_no_match _ _ _ hnone
  constructor
  · simp only [make_action]
    unfold make_action_pass
    rw [hm, if_pos hall]
  · simp only [make_action]
    unfold make_action_resign
    rw [hm, if_pos hall]

theorem unanimity_check_runs_for_seatless_witness :
    (make_action ⟨[], ⟨1, 1, false, [0]⟩, [], []⟩ ⟨⟨1, 1, false, [0]⟩, [], []⟩
        3 .pass).2.2 =
      .ok (.swapState (.done (make_action ⟨[], ⟨1, 1, false, [0]⟩, [], []⟩
        ⟨⟨1, 1, false, [0]⟩, [], []⟩ 3 .pass).1))
    ∧ (make_action ⟨[], ⟨1, 1, false, [0]⟩, [], []⟩ ⟨⟨1, 1, false, [0]⟩, [], []⟩
        3 .resign).2.2 =
      .ok (.swapState (.done (make_action ⟨[], ⟨1, 1, false, [0]⟩, [], []⟩
        ⟨⟨1, 1, false, [0]⟩, [], []⟩ 3 .resign).1)) :=
  unanimity_check_runs_for_seatless _ _ 3 (by simp) (by decide)

/-! ## C7: multi-seat fan-out of Pass and Resign -/

/-- C7: a Pass or Resign from player `pid` sets acceptance to true for
exactly the seats whose assigned player is `pid` (all of them in one call),
leaves the acceptance flag of every other seat unchanged, and (for Resign)
additionally sets the resigned flag of exactly the affected seats. -/
theorem pass_resign_fanout (st : ScoringState) (sh : SharedState) (pid : Nat)
    (hlen : st.players_accepted.length = sh.seats.length)
    (i : Nat) (s : Seat) (hi : sh.seats[i]? = some s) :
    (s.player = some pid →
      (make_action st sh pid .pass).1.players_accepted[i]? = some true
      ∧ (make_action st sh pid .resign).1.players_accepted[i]? = some true
      ∧ (make_action st sh pid .resign).2.1.seats[i]? =
          some { s with resigned := true })
    ∧ (s.player ≠ some pid →
      (make_action st sh pid .pass).1.players_accepted[i]? =
        st.players_accepted[i]?
      ∧ (make_action st sh pid .resign).1.players_accepted[i]? =
        st.players_accepted[i]?
      ∧ (make_action st sh pid .resign).2.1.seats[i]? = some s) := by
  have hilen : i < st.players_accepted.length := by
    rw [hlen]
    exact (List.getElem?_eq_some_iff.1 hi).1
  have hpass1 : (make_action st sh pid .pass).1 =
      { st with players_accepted := markAccepted st.players_accepted sh.seats pid } := by
    simp only [make_action]; exact make_action_pass_fst st sh pid
  have hres1 : (make_action st sh pid .resign).1 =
      { st with players_accepted := markAccepted st.players_accepted sh.seats pid } := by
    simp only [make_action]; exact make_action_resign_fst st sh pid
  have hres2 : (make_action st sh pid .resign).2.1 =
      { sh with
        seats := sh.seats.map
          (fun s2 => if s2.player = some pid then { s2 with resigned := true } else s2) } := by
    simp only [make_action]; exact make_action_resign_shared st sh pid
  constructor
  · intro hp
    have hhit : (markAccepted st.players_accepted sh.seats pid)[i]? = some true := by
      have := markAcceptedGo_hit pid sh.seats 0 st.players_accepted i s hi hp
        (by omega)
      simpa [markAccepted] using this
    refine ⟨?_, ?_, ?_⟩
    · rw [hpass1]; exact hhit
    · rw [hres1]; exact hhit
    · rw [hres2]
      simp [List.getElem?_map, hi, hp]
  · intro hp
    have hmiss : (markAccepted st.players_accepted sh.seats pid)[i]? =
        st.players_accepted[i]? := by
      apply markAcceptedGo_miss
      intro k s2 hk hp2 heq
      have hik : i = k := by omega
      subst hik
      rw [hi] at hk
      injection hk with hk
      exact hp (hk ▸ hp2)
    refine ⟨?_, ?_, ?_⟩
    · rw [hpass1]; exact hmiss
    · rw [hres1]; exact hmiss
    · rw [hres2]
      simp [List.getElem?_map, hi, hp]

theorem pass_resign_fanout_witness :
    ((⟨some 7, false⟩ : Seat).player = some 7 →
      (make_action ⟨[], ⟨1, 1, false, [0]⟩, [], [false, false]⟩
        ⟨⟨1, 1, false, [0]⟩, [⟨some 7, false⟩, ⟨some 8, false⟩], []⟩ 7
        .pass).1.players_accepted[0]? = some true
      ∧ (make_action ⟨[], ⟨1, 1, false, [0]⟩, [], [false, false]⟩
        ⟨⟨1, 1, false, [0]⟩, [⟨some 7, false⟩, ⟨some 8, false⟩], []⟩ 7
        .resign).1.players_accepted[0]? = some true
      ∧ (make_action ⟨[], ⟨1, 1, false, [0]⟩, [], [false, false]⟩
        ⟨⟨1, 1, false, [0]⟩, [⟨some 7, false⟩, ⟨some 8, false⟩], []⟩ 7
        .resign).2.1.seats[0]? = some { (⟨some 7, false⟩ : Seat) with resigned := true })
    ∧ ((⟨some 7, false⟩ : Seat).player ≠ some 7 →
      (make_action ⟨[], ⟨1, 1, false, [0]⟩, [], [false, false]⟩
        ⟨⟨1, 1, false, [0]⟩, [⟨some 7, false⟩, ⟨some 8, false⟩], []⟩ 7
        .pass).1.players_accepted[0]? = [false, false][0]?
      ∧ (make_action ⟨[], ⟨1, 1, false, [0]⟩, [], [false, false]⟩
        ⟨⟨1, 1, false, [0]⟩, [⟨some 7, false⟩, ⟨some 8, false⟩], []⟩ 7
        .resign).1.players_accepted[0]? = [false, false][0]?
      ∧ (make_action ⟨[], ⟨1, 1, false, [0]⟩, [], [false, false]⟩
        ⟨⟨1, 1, false, [0]⟩, [⟨some 7, false⟩, ⟨some 8, false⟩], []⟩ 7
        .resign).2.1.seats[0]? = some ⟨some 7, false⟩) :=
  pass_resign_fanout ⟨[], ⟨1, 1, false, [0]⟩, [], [false, false]⟩
    ⟨⟨1, 1, false, [0]⟩, [⟨some 7, false⟩, ⟨some 8, false⟩], []⟩ 7 (by decide)
    0 ⟨some 7, false⟩ rfl

/-! ## C8: monotonicity of resignation and acceptance -/

theorem make_action_resigned_mono (st : ScoringState) (sh : SharedState) (pid : Nat)
    (a : ActionKind) (i : Nat) (s : Seat) (hi : sh.seats[i]? = some s)
    (hr : s.resigned = true) :
    ∃ s2, (make_action st sh pid a).2.1.seats[i]? = some s2 ∧ s2.resigned = true := by
  cases a with
  | place x y =>
    refine ⟨s, ?_, hr⟩
    simp only [make_action]
    unfold make_action_place
    cases hf : st.groups.findIdx? (fun g => decide ((x, y) ∈ g.points)) <;> simpa [hf]
  | pass =>
    refine ⟨s, ?_, hr⟩
    simp only [make_action]
    rw [make_action_pass_shared]
    exact hi
  | cancel => exact ⟨s, hi, hr⟩
  | resign =>
    simp only [make_action]
    rw [make_action_resign_shared]
    by_cases hp : s.player = some pid
    · exact ⟨{ s with resigned := true }, by simp [List.getElem?_map, hi, hp], rfl⟩
    · exact ⟨s, by simp [List.getElem?_map, hi, hp], hr⟩

/-- C8: over any action sequence, a seat's resigned flag, once true, is never
cleared; and in any single step, a seat's acceptance flag, once true, stays
true unless the action is a Place that hits a group, in which case the flag
is reset to the seat's current resigned flag. -/
theorem consensus_monotonicity :
    (∀ (acts : List (Nat × ActionKind)) (st : ScoringState) (sh : SharedState)
      (i : Nat) (s : Seat), sh.seats[i]? = some s → s.resigned = true →
      ∃ s2, (runActions st sh acts).2.seats[i]? = some s2 ∧ s2.resigned = true)
    ∧ (∀ (st : ScoringState) (sh : SharedState) (pid : Nat) (a : ActionKind)
      (i : Nat), st.players_accepted[i]? = some true →
      (make_action st sh pid a).1.players_accepted[i]? = some true
      ∨ (∃ x y j, a = .place x y
          ∧ st.groups.findIdx? (fun g => decide ((x, y) ∈ g.points)) = some j
          ∧ ∀ s, sh.seats[i]? = some s →
            (make_action st sh pid a).1.players_accepted[i]? = some s.resigned)) := by
  constructor
  · intro acts
    induction acts with
    | nil => intro st sh i s hi hr; exact ⟨s, hi, hr⟩
    | cons pa rest ih =>
      intro st sh i s hi hr
      obtain ⟨s2, hi2, hr2⟩ := make_action_resigned_mono st sh pa.1 pa.2 i s hi hr
      simpa [runActions] using ih (make_action st sh pa.1 pa.2).1
        (make_action st sh pa.1 pa.2).2.1 i s2 hi2 hr2
  · intro st sh pid a i hacc
    have hilen : i < st.players_accepted.length := by
      by_contra hc
      rw [List.getElem?_eq_none (by omega)] at hacc
      simp at hacc
    cases a with
    | place x y =>
      cases hf : st.groups.findIdx? (fun g => decide ((x, y) ∈ g.points)) with
      | none =>
        left
        simp only [make_action]
        unfold make_action_place
        rw [hf]
        exact hacc
      | some j =>
        right
        refine ⟨x, y, j, rfl, hf, ?_⟩
        intro s hs
        simp only [make_action]
        unfold make_action_place
        rw [hf]
        simp [List.getElem?_map, List.getElem?_range hilen, hs]
    | pass =>
      left
      simp only [make_action]
      rw [make_action_pass_fst]
      exact markAcceptedGo_true_mono pid sh.seats 0 st.players_accepted i hacc
    | cancel => left; exact hacc
    | resign =>
      left
      simp only [make_action]
      rw [make_action_resign_fst]
      exact markAcceptedGo_true_mono pid sh.seats 0 st.players_accepted i hacc

theorem consensus_monotonicity_witness :
    (∃ s2, (runActions ⟨[], ⟨1, 1, false, [0]⟩, [], [false]⟩
        ⟨⟨1, 1, false, [0]⟩, [⟨some 1, true⟩], []⟩
        [(1, .pass)]).2.seats[0]? = some s2 ∧ s2.resigned = true)
    ∧ ((make_action ⟨[], ⟨1, 1, false, [0]⟩, [], [true]⟩
        ⟨⟨1, 1, false, [0]⟩, [], []⟩ 0 .cancel).1.players_accepted[0]? = some true
      ∨ (∃ x y j, (ActionKind.cancel = ActionKind.place x y)
          ∧ (([] : List Group).findIdx? (fun g => decide ((x, y) ∈ g.points)) = some j)
          ∧ ∀ s, (⟨⟨1, 1, false, [0]⟩, [], []⟩ : SharedState).seats[0]? = some s →
            (make_action ⟨[], ⟨1, 1, false, [0]⟩, [], [true]⟩
              ⟨⟨1, 1, false, [0]⟩, [], []⟩ 0 .cancel).1.players_accepted[0]? =
              some s.resigned)) :=
  ⟨consensus_monotonicity.1 [(1, .pass)] ⟨[], ⟨1, 1, false, [0]⟩, [], [false]⟩
      ⟨⟨1, 1, false, [0]⟩, [⟨some 1, true⟩], []⟩ 0 ⟨some 1, true⟩ rfl rfl,
    consensus_monotonicity.2 ⟨[], ⟨1, 1, false, [0]⟩, [], [true]⟩
      ⟨⟨1, 1, false, [0]⟩, [], []⟩ 0 .cancel 0 rfl⟩

/-! ## C4: score accounting -/

theorem bumpScore_length (s : List Int) (i : Nat) :
    (bumpScore s i).length = s.length := by
  simp [bumpScore]

theorem scoreFold_getD (cs : List Nat) :
    ∀ (base : List Int) (i : Nat), i < base.length →
    (cs.foldl (fun s c => if c ≠ 0 then bumpScore s (c - 1) else s) base).getD i 0 =
      base.getD i 0 + 2 * ((cs.countP (fun c => c = i + 1) : Nat) : Int) := by
  induction cs with
  | nil => intro base i _; simp
  | cons c rest ih =>
    intro base i hi
    rw [List.foldl_cons, List.countP_cons]
    by_cases hc0 : c = 0
    · subst hc0
      rw [if_neg (by simp)]
      rw [ih base i hi]
      simp
    · rw [if_pos (by simpa using hc0)]
      rw [ih (bumpScore base (c - 1)) i (by rw [bumpScore_length]; exact hi)]
      by_cases hci : c = i + 1
      · have hidx : c - 1 = i := by omega
        have hgd : (bumpScore base (c - 1)).getD i 0 = base.getD i 0 + 2 := by
          rw [hidx]
          simp [bumpScore, List.getD_eq_getElem?_getD, List.getElem?_set, hi]
        rw [hgd]
        simp [hci]
        ring
      · have hidx : c - 1 ≠ i := by omega
        have hgd : (bumpScore base (c - 1)).getD i 0 = base.getD i 0 := by
          simp [bumpScore, List.getD_eq_getElem?_getD, List.getElem?_set_ne hidx]
        rw [hgd]
        simp [hci]

theorem addTerritory_getD (base : List Int) (b : Board) (i : Nat)
    (hi : i < base.length) :
    (addTerritory base b).getD i 0 =
      base.getD i 0 + 2 * ((b.points.countP (fun c => c = i + 1) : Nat) : Int) :=
  scoreFold_getD b.points base i hi

/-- C4: after any scoring recomputation — at construction of the
ScoringState and after every Place toggle — each team's entry in the score
vector equals that team's baseline entry plus 2 times the number of board
points whose resolved color in the territory board is that team's color
(team of color `i + 1` is stored at index `i`).  The baseline is the score
vector passed at construction resp. `shared.points` on the Place path; the
bound hypotheses restrict to executions in which the source's indexing
`scores[color - 1] += 2` never goes out of range (it would panic there). -/
theorem score_accounting :
    (∀ (board : Board) (seats : List Seat) (scores : List Int) (i : Nat),
      (∀ c ∈ (score_board board (find_groups board)).points, c ≠ 0 →
        c - 1 < scores.length) →
      i < scores.length →
      (ScoringState.new board seats scores).scores.getD i 0 =
        scores.getD i 0 +
          2 * (((score_board board (find_groups board)).points.countP
            (fun c => c = i + 1) : Nat) : Int))
    ∧ (∀ (st : ScoringState) (sh : SharedState) (pid x y j i : Nat),
      st.groups.findIdx? (fun g => decide ((x, y) ∈ g.points)) = some j →
      (∀ c ∈ (make_action st sh pid (.place x y)).1.points.points, c ≠ 0 →
        c - 1 < sh.points.length) →
      i < sh.points.length →
      (make_action st sh pid (.place x y)).1.scores.getD i 0 =
        sh.points.getD i 0 +
          2 * (((make_action st sh pid (.place x y)).1.points.points.countP
            (fun c => c = i + 1) : Nat) : Int)) := by
  constructor
  · intro board seats scores i _ hi
    exact addTerritory_getD scores (score_board board (find_groups board)) i hi
  · intro st sh pid x y j i hfind _ hi
    simp only [make_action]
    unfold make_action_place
    rw [hfind]
    exact addTerritory_getD sh.points
      (score_board sh.board
        (modifyAt st.groups j (fun g => { g with alive := !g.alive }))) i hi

theorem score_accounting_witness :
    ((ScoringState.new ⟨3, 1, false, [1, 0, 2]⟩ [] [0, 0]).scores.getD 0 0 =
      (([0, 0] : List Int)).getD 0 0 +
        2 * (((score_board ⟨3, 1, false, [1, 0, 2]⟩
          (find_groups ⟨3, 1, false, [1, 0, 2]⟩)).points.countP
            (fun c => c = 0 + 1) : Nat) : Int))
    ∧ ((make_action ⟨[⟨[(0, 0)], 1, true⟩], ⟨2, 1, false, [1, 1]⟩, [2], []⟩
        ⟨⟨2, 1, false, [1, 0]⟩, [], [0]⟩ 0 (.place 0 0)).1.scores.getD 0 0 =
      (⟨⟨2, 1, false, [1, 0]⟩, [], [0]⟩ : SharedState).points.getD 0 0 +
        2 * (((make_action ⟨[⟨[(0, 0)], 1, true⟩], ⟨2, 1, false, [1, 1]⟩, [2], []⟩
          ⟨⟨2, 1, false, [1, 0]⟩, [], [0]⟩ 0
          (.place 0 0)).1.points.points.countP (fun c => c = 0 + 1) : Nat) : Int)) :=
  ⟨score_accounting.1 ⟨3, 1, false, [1, 0, 2]⟩ [] [0, 0] 0 (by decide) (by decide),
    score_accounting.2 ⟨[⟨[(0, 0)], 1, true⟩], ⟨2, 1, false, [1, 1]⟩, [2], []⟩
      ⟨⟨2, 1, false, [1, 0]⟩, [], [0]⟩ 0 0 0 0 0 (by decide) (by decide) (by decide)⟩

/-! ## C3: the Place toggle is an involution on points and scores -/

theorem modifyAt_toggle_toggle (l : List Group) :
    ∀ j, modifyAt (modifyAt l j (fun g => { g with alive := !g.alive })) j
      (fun g => { g with alive := !g.alive }) = l := by
  induction l with
  | nil => intro j; rfl
  | cons a l ih =>
    intro j
    cases j with
    | zero => simp [modifyAt, Bool.not_not]
    | succ j2 => simp [modifyAt, ih j2]

theorem findIdx?_modifyAt (f : Group → Group)
    (hf : ∀ g, (f g).points = g.points) (pt : Point) (l : List Group) :
    ∀ j n, (modifyAt l j f).findIdx? (fun g => decide (pt ∈ g.points)) n =
      l.findIdx? (fun g => decide (pt ∈ g.points)) n := by
  induction l with
  | nil => intro j n; cases j <;> rfl
  | cons a l ih =>
    intro j n
    cases j with
    | zero =>
      show ((f a :: l).findIdx? _ n = _)
      rw [List.findIdx?_cons, List.findIdx?_cons, hf a]
    | succ j2 =>
      show ((a :: modifyAt l j2 f).findIdx? _ n = _)
      rw [List.findIdx?_cons, List.findIdx?_cons, ih j2 (n + 1)]

/-- C3 counterexample: a ScoringState whose `points` field is stale (not the
recomputation of the current groups over the shared board): two successive
Place actions on a grouped point do not restore the prior `points` value,
refuting the claim as stated for arbitrary ScoringStates. -/
theorem place_involution_cex :
    ((make_action
        (make_action ⟨[⟨[(0, 0)], 1, true⟩], ⟨2, 1, false, [7, 7]⟩, [], []⟩
          ⟨⟨2, 1, false, [1, 0]⟩, [], []⟩ 0 (.place 0 0)).1
        (make_action ⟨[⟨[(0, 0)], 1, true⟩], ⟨2, 1, false, [7, 7]⟩, [], []⟩
          ⟨⟨2, 1, false, [1, 0]⟩, [], []⟩ 0 (.place 0 0)).2.1
        0 (.place 0 0)).1.points
      ≠ (⟨[⟨[(0, 0)], 1, true⟩], ⟨2, 1, false, [7, 7]⟩, [], []⟩ :
          ScoringState).points) := by
  decide

/-- C3 (amended): two successive Place actions on the same grouped point
(with an unchanged SharedState in between) restore the territory board and
the score vector — and the groups — provided the state satisfied the scoring
invariant beforehand, i.e. its `points` and `scores` fields were the
recomputation over the current shared context (as holds for every state the
phase itself produces after a Place; an arbitrary ScoringState with a stale
`points` or `scores` field is not restored, see the counterexample). -/
theorem place_involution (st : ScoringState) (sh : SharedState)
    (pid1 pid2 x y : Nat) (j : Nat)
    (hfind : st.groups.findIdx? (fun g => decide ((x, y) ∈ g.points)) = some j)
    (hp : st.points = score_board sh.board st.groups)
    (hs : st.scores = addTerritory sh.points st.points) :
    (make_action (make_action st sh pid1 (.place x y)).1
        (make_action st sh pid1 (.place x y)).2.1 pid2 (.place x y)).1.points =
      st.points
    ∧ (make_action (make_action st sh pid1 (.place x y)).1
        (make_action st sh pid1 (.place x y)).2.1 pid2 (.place x y)).1.scores =
      st.scores
    ∧ (make_action (make_action st sh pid1 (.place x y)).1
        (make_action st sh pid1 (.place x y)).2.1 pid2 (.place x y)).1.groups =
      st.groups := by
  have hfind2 : (modifyAt st.groups j (fun g => { g with alive := !g.alive
      })).findIdx? (fun g => decide ((x, y) ∈ g.points)) = some j := by
    rw [findIdx?_modifyAt (fun g => { g with alive := !g.alive })
      (fun g => rfl) (x, y) st.groups j 0]
    exact hfind
  simp only [make_action]
  unfold make_action_place
  rw [hfind]
  simp only
  rw [hfind2]
  simp only
  rw [modifyAt_toggle_toggle st.groups j]
  exact ⟨hp.symm, by rw [← hp, ← hs], rfl⟩

theorem place_involution_witness :
    (make_action
        (make_action ⟨[⟨[(0, 0)], 1, true⟩],
            score_board ⟨2, 1, false, [1, 0]⟩ [⟨[(0, 0)], 1, true⟩],
            addTerritory [0]
              (score_board ⟨2, 1, false, [1, 0]⟩ [⟨[(0, 0)], 1, true⟩]), []⟩
          ⟨⟨2, 1, false, [1, 0]⟩, [], [0]⟩ 0 (.place 0 0)).1
        (make_action ⟨[⟨[(0, 0)], 1, true⟩],
            score_board ⟨2, 1, false, [1, 0]⟩ [⟨[(0, 0)], 1, true⟩],
            addTerritory [0]
              (score_board ⟨2, 1, false, [1, 0]⟩ [⟨[(0, 0)], 1, true⟩]), []⟩
          ⟨⟨2, 1, false, [1, 0]⟩, [], [0]⟩ 0 (.place 0 0)).2.1
        0 (.place 0 0)).1.points =
      (⟨[⟨[(0, 0)], 1, true⟩],
          score_board ⟨2, 1, false, [1, 0]⟩ [⟨[(0, 0)], 1, true⟩],
          addTerritory [0]
            (score_board ⟨2, 1, false, [1, 0]⟩ [⟨[(0, 0)], 1, true⟩]), []⟩ :
        ScoringState).points :=
  (place_involution ⟨[⟨[(0, 0)], 1, true⟩],
      score_board ⟨2, 1, false, [1, 0]⟩ [⟨[(0, 0)], 1, true⟩],
      addTerritory [0]
        (score_board ⟨2, 1, false, [1, 0]⟩ [⟨[(0, 0)], 1, true⟩]), []⟩
    ⟨⟨2, 1, false, [1, 0]⟩, [], [0]⟩ 0 0 0 0 0 (by decide) rfl rfl).1

/-! ## Board basics -/

theorem mem_validFinset (b : Board) (q : Point) :
    q ∈ validFinset b ↔ b.valid q := by
  cases q with
  | mk x y => simp [validFinset, Board.valid, Finset.mem_product]

theorem set_point_width (b : Board) (p : Point) (c : Nat) :
    (b.set_point p c).width = b.width := rfl

theorem set_point_height (b : Board) (p : Point) (c : Nat) :
    (b.set_point p c).height = b.height := rfl

theorem set_point_toroidal (b : Board) (p : Point) (c : Nat) :
    (b.set_point p c).toroidal = b.toroidal := rfl

theorem set_point_points_length (b : Board) (p : Point) (c : Nat) :
    (b.set_point p c).points.length = b.points.length := by
  simp [Board.set_point]

theorem coordIdx_congr (b b2 : Board) (hw : b.width = b2.width) (p : Point) :
    b.coordIdx p = b2.coordIdx p := by
  simp [Board.coordIdx, hw]

theorem set_point_get_ne (b : Board) (p q : Point) (c : Nat)
    (h : b.coordIdx p ≠ b.coordIdx q) :
    (b.set_point p c).get_point q = b.get_point q := by
  simp only [Board.get_point, Board.set_point]
  rw [show (⟨b.width, b.height, b.toroidal, b.points.set (b.coordIdx p) c⟩ :
      Board).coordIdx q = b.coordIdx q from rfl]
  rw [List.getElem?_set_ne h]

theorem set_point_get_self (b : Board) (q : Point) (c : Nat)
    (h : b.coordIdx q < b.points.length) :
    (b.set_point q c).get_point q = c := by
  simp only [Board.get_point, Board.set_point]
  rw [show (⟨b.width, b.height, b.toroidal, b.points.set (b.coordIdx q) c⟩ :
      Board).coordIdx q = b.coordIdx q from rfl]
  simp [List.getElem?_set, h]

theorem coordIdx_lt (b : Board) (q : Point) (hv : b.valid q)
    (hlen : b.points.length = b.width * b.height) :
    b.coordIdx q < b.points.length := by
  obtain ⟨hx, hy⟩ := hv
  rw [hlen]
  calc q.2 * b.width + q.1 < q.2 * b.width + b.width := by omega
    _ = (q.2 + 1) * b.width := by ring
    _ ≤ b.height * b.width := Nat.mul_le_mul_right _ (by omega)
    _ = b.width * b.height := Nat.mul_comm _ _

theorem coordIdx_inj (b : Board) (p q : Point) (hp : b.valid p) (hq : b.valid q)
    (h : b.coordIdx p = b.coordIdx q) : p = q := by
  obtain ⟨hx1, hy1⟩ := hp
  obtain ⟨hx2, hy2⟩ := hq
  simp only [Board.coordIdx] at h
  have hw : 0 < b.width := by omega
  have h1 : (p.2 * b.width + p.1) % b.width = p.1 := by
    rw [Nat.add_comm, Nat.add_mul_mod_self_right, Nat.mod_eq_of_lt hx1]
  have h2 : (q.2 * b.width + q.1) % b.width = q.1 := by
    rw [Nat.add_comm, Nat.add_mul_mod_self_right, Nat.mod_eq_of_lt hx2]
  have h3 : (p.2 * b.width + p.1) / b.width = p.2 := by
    rw [Nat.add_comm, Nat.add_mul_div_right _ _ hw, Nat.div_eq_of_lt hx1,
      Nat.zero_add]
  have h4 : (q.2 * b.width + q.1) / b.width = q.2 := by
    rw [Nat.add_comm, Nat.add_mul_div_right _ _ hw, Nat.div_eq_of_lt hx2,
      Nat.zero_add]
  have hfst : p.1 = q.1 := by rw [← h1, ← h2, h]
  have hsnd : p.2 = q.2 := by rw [← h3, ← h4, h]
  exact Prod.ext hfst hsnd

theorem mem_surrounding_toroidal (b : Board) (ht : b.toroidal = true)
    (p q : Point) :
    q ∈ b.surrounding_points p ↔
      q = ((p.1 + b.width - 1) % b.width, p.2) ∨ q = ((p.1 + 1) % b.width, p.2)
      ∨ q = (p.1, (p.2 + b.height - 1) % b.height)
      ∨ q = (p.1, (p.2 + 1) % b.height) := by
  unfold Board.surrounding_points
  rw [ht]
  simp

theorem mem_surrounding_nontoroidal (b : Board) (ht : b.toroidal = false)
    (p q : Point) :
    q ∈ b.surrounding_points p ↔
      (0 < p.1 ∧ q = (p.1 - 1, p.2)) ∨ (p.1 + 1 < b.width ∧ q = (p.1 + 1, p.2))
      ∨ (0 < p.2 ∧ q = (p.1, p.2 - 1))
      ∨ (p.2 + 1 < b.height ∧ q = (p.1, p.2 + 1)) := by
  unfold Board.surrounding_points
  rw [ht]
  by_cases h1 : 0 < p.1 <;> by_cases h2 : p.1 + 1 < b.width <;>
    by_cases h3 : 0 < p.2 <;> by_cases h4 : p.2 + 1 < b.height <;>
    simp [h1, h2, h3, h4]

theorem surrounding_mem_valid (b : Board) (p q : Point) (hp : b.valid p)
    (hq : q ∈ b.surrounding_points p) : b.valid q := by
  obtain ⟨hx, hy⟩ := hp
  have hw : 0 < b.width := by omega
  have hh : 0 < b.height := by omega
  by_cases ht : b.toroidal
  · rw [mem_surrounding_toroidal b ht] at hq
    rcases hq with h | h | h | h <;> subst h <;>
      exact ⟨by first
        | exact Nat.mod_lt _ hw
        | exact hx, by first
        | exact Nat.mod_lt _ hh
        | exact hy⟩
  · rw [mem_surrounding_nontoroidal b (by simpa using ht)] at hq
    rcases hq with ⟨hc, h⟩ | ⟨hc, h⟩ | ⟨hc, h⟩ | ⟨hc, h⟩ <;> subst h <;>
      exact ⟨by omega, by omega⟩

theorem surrounding_congr (b b2 : Board) (hw : b.width = b2.width)
    (hh : b.height = b2.height) (ht : b.toroidal = b2.toroidal) (p : Point) :
    b.surrounding_points p = b2.surrounding_points p := by
  unfold Board.surrounding_points
  rw [hw, hh, ht]

theorem valid_congr (b b2 : Board) (hw : b.width = b2.width)
    (hh : b.height = b2.height) (p : Point) : b.valid p ↔ b2.valid p := by
  unfold Board.valid
  rw [hw, hh]

theorem surrounding_symm (b : Board) (p q : Point) (hp : b.valid p)
    (hq : b.valid q) (h : q ∈ b.surrounding_points p) :
    p ∈ b.surrounding_points q := by
  obtain ⟨hx, hy⟩ := hp
  have hw : 0 < b.width := by omega
  have hh : 0 < b.height := by omega
  have hml : ∀ a, a < b.width → ((a + b.width - 1) % b.width + 1) % b.width = a := by
    intro a ha
    rw [Nat.mod_add_mod, show a + b.width - 1 + 1 = a + b.width by omega,
      Nat.add_mod_right, Nat.mod_eq_of_lt ha]
  have hmr : ∀ a, a < b.width → ((a + 1) % b.width + b.width - 1) % b.width = a := by
    intro a ha
    rw [show (a + 1) % b.width + b.width - 1 = (a + 1) % b.width + (b.width - 1)
        by omega,
      Nat.mod_add_mod, show a + 1 + (b.width - 1) = a + b.width by omega,
      Nat.add_mod_right, Nat.mod_eq_of_lt ha]
  have hml2 : ∀ a, a < b.height →
      ((a + b.height - 1) % b.height + 1) % b.height = a := by
    intro a ha
    rw [Nat.mod_add_mod, show a + b.height - 1 + 1 = a + b.height by omega,
      Nat.add_mod_right, Nat.mod_eq_of_lt ha]
  have hmr2 : ∀ a, a < b.height →
      ((a + 1) % b.height + b.height - 1) % b.height = a := by
    intro a ha
    rw [show (a + 1) % b.height + b.height - 1 = (a + 1) % b.height + (b.height - 1)
        by omega,
      Nat.mod_add_mod, show a + 1 + (b.height - 1) = a + b.height by omega,
      Nat.add_mod_right, Nat.mod_eq_of_lt ha]
  by_cases ht : b.toroidal
  · rw [mem_surrounding_toroidal b ht] at h
    rw [mem_surrounding_toroidal b ht]
    rcases h with h | h | h | h <;> subst h
    · right; left
      exact Prod.ext (hml p.1 hx).symm rfl
    · left
      exact Prod.ext (hmr p.1 hx).symm rfl
    · right; right; right
      exact Prod.ext rfl (hml2 p.2 hy).symm
    · right; right; left
      exact Prod.ext rfl (hmr2 p.2 hy).symm
  · have ht2 : b.toroidal = false := by simpa using ht
    rw [mem_surrounding_nontoroidal b ht2] at h
    rw [mem_surrounding_nontoroidal b ht2]
    rcases h with ⟨hc, h⟩ | ⟨hc, h⟩ | ⟨hc, h⟩ | ⟨hc, h⟩ <;> subst h <;>
      dsimp only <;> simp only [Prod.ext_iff, and_true, true_and, eq_self_iff_true] <;>
      omega

/-! ## Reachability infrastructure -/

theorem reach_props (b : Board) (p q : Point) (hv : b.valid p)
    (he : b.get_point p = 0) (h : reach b p q) :
    b.valid q ∧ b.get_point q = 0 := by
  induction h with
  | refl => exact ⟨hv, he⟩
  | tail h1 h2 ih => exact ⟨h2.2.1, h2.2.2.2.1⟩

theorem emptyAdj_symm (b : Board) : Symmetric (emptyAdj b) := by
  intro p q h
  obtain ⟨h1, h2, h3, h4, h5⟩ := h
  exact ⟨h2, h1, h4, h3, surrounding_symm b p q h1 h2 h5⟩

theorem reach_symm (b : Board) (p q : Point) (h : reach b p q) : reach b q p :=
  Relation.ReflTransGen.symmetric (emptyAdj_symm b) h

theorem reach_closed_subset (b : Board) (p0 : Point) (M : Set Point)
    (hp0 : p0 ∈ M) (hcl : ∀ x r, x ∈ M → emptyAdj b x r → r ∈ M) :
    ∀ q, reach b p0 q → q ∈ M := by
  intro q h
  induction h with
  | refl => exact hp0
  | tail h1 h2 ih => exact hcl _ _ ih h2

theorem borderColors_eq_of_reach (b : Board) (p q : Point) (h : reach b p q) :
    borderColors b q = borderColors b p := by
  apply Set.ext
  intro c
  constructor
  · rintro ⟨hc, x, r, hrx, hmem, hget⟩
    exact ⟨hc, x, r, h.trans hrx, hmem, hget⟩
  · rintro ⟨hc, x, r, hrx, hmem, hget⟩
    exact ⟨hc, x, r, (reach_symm b p q h).trans hrx, hmem, hget⟩

theorem reach_congr (S b : Board) (hw : b.width = S.width)
    (hh : b.height = S.height) (ht : b.toroidal = S.toroidal)
    (hstone : ∀ r, S.get_point r ≠ 0 → b.get_point r = S.get_point r)
    (p : Point) (hcomp : ∀ r, reach S p r → b.get_point r = 0) :
    ∀ q, reach S p q ↔ reach b p q := by
  intro q
  constructor
  · intro h
    induction h with
    | refl => exact Relation.ReflTransGen.refl
    | tail h1 h2 ih =>
      obtain ⟨hv1, hv2, he1, he2, hm⟩ := h2
      refine ih.tail ⟨(valid_congr b S hw hh _).2 hv1,
        (valid_congr b S hw hh _).2 hv2, hcomp _ h1, hcomp _ (h1.tail
          ⟨hv1, hv2, he1, he2, hm⟩), ?_⟩
      rw [surrounding_congr b S hw hh ht]
      exact hm
  · intro h
    induction h with
    | refl => exact Relation.ReflTransGen.refl
    | tail h1 h2 ih =>
      rename_i x y
      obtain ⟨hv1, hv2, he1, he2, hm⟩ := h2
      have hS1 : S.get_point x = 0 := by
        by_contra hne
        rw [hstone _ hne] at he1
        exact hne he1
      have hS2 : S.get_point y = 0 := by
        by_contra hne
        rw [hstone _ hne] at he2
        exact hne he2
      refine ih.tail ⟨(valid_congr b S hw hh _).1 hv1,
        (valid_congr b S hw hh _).1 hv2, hS1, hS2, ?_⟩
      rw [← surrounding_congr b S hw hh ht]
      exact hm

theorem borderColors_congr (S b : Board) (hw : b.width = S.width)
    (hh : b.height = S.height) (ht : b.toroidal = S.toroidal)
    (hstone : ∀ r, S.get_point r ≠ 0 → b.get_point r = S.get_point r)
    (p : Point) (hpv : S.valid p) (hpe : S.get_point p = 0)
    (hcomp : ∀ r, reach S p r → b.get_point r = 0) :
    borderColors S p = borderColors b p := by
  apply Set.ext
  intro c
  constructor
  · rintro ⟨hc, q, r, hq, hmem, hget⟩
    refine ⟨hc, q, r, (reach_congr S b hw hh ht hstone p hcomp q).1 hq, ?_, ?_⟩
    · rw [surrounding_congr b S hw hh ht]
      exact hmem
    · rw [hstone r (by rw [hget]; exact hc)]
      exact hget
  · rintro ⟨hc, q, r, hq, hmem, hget⟩
    have hqS : reach S p q := (reach_congr S b hw hh ht hstone p hcomp q).2 hq
    obtain ⟨hqv, hqe⟩ := reach_props S p q hpv hpe hqS
    have hmemS : r ∈ S.surrounding_points q := by
      rw [← surrounding_congr b S hw hh ht]
      exact hmem
    have hrS : S.get_point r ≠ 0 := by
      intro h0
      have hrv : S.valid r := surrounding_mem_valid S q r hqv hmemS
      have : reach S p r := hqS.tail ⟨hqv, hrv, hqe, h0, hmemS⟩
      rw [hcomp r this] at hget
      exact hc hget.symm
    exact ⟨hc, q, r, hqS, hmemS, (hstone r hrS).symm.trans hget⟩

/-! ## Collision accumulator lemmas -/

theorem stoneColors_insert_empty (b : Board) (r : Point) (s : Finset Point)
    (h : b.get_point r = 0) :
    stoneColors b (insert r s) = stoneColors b s := by
  apply Set.ext
  intro c
  constructor
  · rintro ⟨hc, r2, hr2, hget⟩
    rcases Finset.mem_insert.1 hr2 with h2 | h2
    · subst h2
      rw [h] at hget
      exact absurd hget.symm hc
    · exact ⟨hc, r2, h2, hget⟩
  · rintro ⟨hc, r2, hr2, hget⟩
    exact ⟨hc, r2, Finset.mem_insert_of_mem hr2, hget⟩

theorem stoneColors_insert_stone (b : Board) (r : Point) (s : Finset Point)
    (c : Nat) (hget : b.get_point r = c) (hc : c ≠ 0) :
    stoneColors b (insert r s) = insert c (stoneColors b s) := by
  apply Set.ext
  intro x
  constructor
  · rintro ⟨hx, r2, hr2, hget2⟩
    rcases Finset.mem_insert.1 hr2 with h2 | h2
    · subst h2
      rw [hget] at hget2
      exact Or.inl hget2.symm
    · exact Or.inr ⟨hx, r2, h2, hget2⟩
  · rintro (hx | ⟨hx, r2, hr2, hget2⟩)
    · subst hx
      exact ⟨hc, r, Finset.mem_insert_self r s, hget⟩
    · exact ⟨hx, r2, Finset.mem_insert_of_mem hr2, hget2⟩

theorem colMatches_collide (S : Set Nat) (col : SeenTeams) (c : Nat)
    (hc : c ≠ 0) (h : colMatches S col) :
    colMatches (insert c S) (col.collide c) := by
  cases col with
  | zero =>
    simp only [colMatches] at h
    subst h
    simp [SeenTeams.collide, colMatches]
  | one x =>
    simp only [colMatches] at h
    subst h
    by_cases hcx : x = c
    · subst hcx
      simp [SeenTeams.collide, colMatches]
    · simp only [SeenTeams.collide, if_neg hcx, colMatches]
      exact ⟨c, x, Set.mem_insert c _, Set.mem_insert_of_mem c rfl, fun he =>
        hcx he.symm⟩
  | many =>
    obtain ⟨c1, c2, h1, h2, hne⟩ := h
    exact ⟨c1, c2, Set.mem_insert_of_mem c h1, Set.mem_insert_of_mem c h2, hne⟩

/-! ## The neighbor-visiting loop -/

theorem visitNbrs_seen_mono (b : Board) :
    ∀ (nbrs : List Point) (seen : Finset Point) (stack legal : List Point)
      (col : SeenTeams) (r : Point), r ∈ seen →
      r ∈ (visitNbrs b nbrs seen stack legal col).1 := by
  intro nbrs
  induction nbrs with
  | nil => intro seen stack legal col r h; simpa [visitNbrs] using h
  | cons n rest ih =>
    intro seen stack legal col r h
    simp only [visitNbrs]
    by_cases h1 : n ∈ seen
    · rw [if_pos h1]
      exact ih _ _ _ _ r h
    · rw [if_neg h1]
      by_cases h2 : b.get_point n = 0
      · rw [if_pos h2]
        exact ih _ _ _ _ r (Finset.mem_insert_of_mem h)
      · rw [if_neg h2]
        exact ih _ _ _ _ r (Finset.mem_insert_of_mem h)

theorem visitNbrs_nbrs_seen (b : Board) :
    ∀ (nbrs : List Point) (seen : Finset Point) (stack legal : List Point)
      (col : SeenTeams) (r : Point), r ∈ nbrs →
      r ∈ (visitNbrs b nbrs seen stack legal col).1 := by
  intro nbrs
  induction nbrs with
  | nil => intro seen stack legal col r h; simp at h
  | cons n rest ih =>
    intro seen stack legal col r h
    simp only [visitNbrs]
    rcases List.mem_cons.1 h with h | h
    · subst h
      by_cases h1 : r ∈ seen
      · rw [if_pos h1]
        exact visitNbrs_seen_mono b rest seen stack legal col r h1
      · rw [if_neg h1]
        by_cases h2 : b.get_point r = 0
        · rw [if_pos h2]
          exact visitNbrs_seen_mono b rest _ _ _ _ r (Finset.mem_insert_self r seen)
        · rw [if_neg h2]
          exact visitNbrs_seen_mono b rest _ _ _ _ r (Finset.mem_insert_self r seen)
    · by_cases h1 : n ∈ seen
      · rw [if_pos h1]
        exact ih _ _ _ _ r h
      · rw [if_neg h1]
        by_cases h2 : b.get_point n = 0
        · rw [if_pos h2]
          exact ih _ _ _ _ r h
        · rw [if_neg h2]
          exact ih _ _ _ _ r h

theorem visitNbrs_seen_sub (b : Board) :
    ∀ (nbrs : List Point) (seen : Finset Point) (stack legal : List Point)
      (col : SeenTeams) (r : Point),
      r ∈ (visitNbrs b nbrs seen stack legal col).1 → r ∈ seen ∨ r ∈ nbrs := by
  intro nbrs
  induction nbrs with
  | nil =>
    intro seen stack legal col r h
    simp only [visitNbrs] at h
    exact Or.inl h
  | cons n rest ih =>
    intro seen stack legal col r h
    simp only [visitNbrs] at h
    by_cases h1 : n ∈ seen
    · rw [if_pos h1] at h
      rcases ih _ _ _ _ r h with h2 | h2
      · exact Or.inl h2
      · exact Or.inr (List.mem_cons_of_mem n h2)
    · rw [if_neg h1] at h
      by_cases h2 : b.get_point n = 0 <;>
        [rw [if_pos h2] at h; rw [if_neg h2] at h] <;>
        · rcases ih _ _ _ _ r h with h3 | h3
          · rcases Finset.mem_insert.1 h3 with h4 | h4
            · exact Or.inr (h4 ▸ List.mem_cons_self n rest)
            · exact Or.inl h4
          · exact Or.inr (List.mem_cons_of_mem n h3)

theorem visitNbrs_stack_mono (b : Board) :
    ∀ (nbrs : List Point) (seen : Finset Point) (stack legal : List Point)
      (col : SeenTeams) (x : Point), x ∈ stack →
      x ∈ (visitNbrs b nbrs seen stack legal col).2.1 := by
  intro nbrs
  induction nbrs with
  | nil => intro seen stack legal col x h; simpa [visitNbrs] using h
  | cons n rest ih =>
    intro seen stack legal col x h
    simp only [visitNbrs]
    by_cases h1 : n ∈ seen
    · rw [if_pos h1]
      exact ih _ _ _ _ x h
    · rw [if_neg h1]
      by_cases h2 : b.get_point n = 0
      · rw [if_pos h2]
        exact ih _ _ _ _ x (List.mem_append_left _ h)
      · rw [if_neg h2]
        exact ih _ _ _ _ x h

theorem visitNbrs_stack_sub (b : Board) :
    ∀ (nbrs : List Point) (seen : Finset Point) (stack legal : List Point)
      (col : SeenTeams) (x : Point),
      x ∈ (visitNbrs b nbrs seen stack legal col).2.1 →
      x ∈ stack ∨ (x ∈ nbrs ∧ b.get_point x = 0 ∧
        x ∈ (visitNbrs b nbrs seen stack legal col).1) := by
  intro nbrs
  induction nbrs with
  | nil =>
    intro seen stack legal col x h
    simp only [visitNbrs] at h ⊢
    exact Or.inl h
  | cons n rest ih =>
    intro seen stack legal col x h
    simp only [visitNbrs] at h ⊢
    by_cases h1 : n ∈ seen
    · rw [if_pos h1] at h ⊢
      rcases ih _ _ _ _ x h with h2 | ⟨h2, h3, h4⟩
      · exact Or.inl h2
      · exact Or.inr ⟨List.mem_cons_of_mem n h2, h3, h4⟩
    · rw [if_neg h1] at h ⊢
      by_cases h2 : b.get_point n = 0
      · rw [if_pos h2] at h ⊢
        rcases ih _ _ _ _ x h with h3 | ⟨h3, h4, h5⟩
        · rcases List.mem_append.1 h3 with h4 | h4
          · exact Or.inl h4
          · rw [List.mem_singleton] at h4
            subst h4
            refine Or.inr ⟨List.mem_cons_self x rest, h2, ?_⟩
            exact visitNbrs_seen_mono b rest _ _ _ _ x (Finset.mem_insert_self x seen)
        · exact Or.inr ⟨List.mem_cons_of_mem n h3, h4, h5⟩
      · rw [if_neg h2] at h ⊢
        rcases ih _ _ _ _ x h with h3 | ⟨h3, h4, h5⟩
        · exact Or.inl h3
        · exact Or.inr ⟨List.mem_cons_of_mem n h3, h4, h5⟩

theorem visitNbrs_new_empty_stack (b : Board) :
    ∀ (nbrs : List Point) (seen : Finset Point) (stack legal : List Point)
      (col : SeenTeams) (r : Point),
      r ∈ (visitNbrs b nbrs seen stack legal col).1 → r ∉ seen →
      b.get_point r = 0 → r ∈ (visitNbrs b nbrs seen stack legal col).2.1 := by
  intro nbrs
  induction nbrs with
  | nil =>
    intro seen stack legal col r h hns he
    simp only [visitNbrs] at h
    exact absurd h hns
  | cons n rest ih =>
    intro seen stack legal col r h hns he
    simp only [visitNbrs] at h ⊢
    by_cases h1 : n ∈ seen
    · rw [if_pos h1] at h ⊢
      exact ih _ _ _ _ r h hns he
    · rw [if_neg h1] at h ⊢
      by_cases h2 : b.get_point n = 0
      · rw [if_pos h2] at h ⊢
        by_cases hrn : r = n
        · subst hrn
          exact visitNbrs_stack_mono b rest _ _ _ _ r
            (List.mem_append_right _ (List.mem_singleton_self r))
        · exact ih _ _ _ _ r h (by
            intro hmem
            rcases Finset.mem_insert.1 hmem with h3 | h3
            · exact hrn h3
            · exact hns h3) he
      · rw [if_neg h2] at h ⊢
        by_cases hrn : r = n
        · subst hrn
          exact absurd he h2
        · exact ih _ _ _ _ r h (by
            intro hmem
            rcases Finset.mem_insert.1 hmem with h3 | h3
            · exact hrn h3
            · exact hns h3) he

theorem visitNbrs_col (b : Board) :
    ∀ (nbrs : List Point) (seen : Finset Point) (stack legal : List Point)
      (col : SeenTeams),
      colMatches (stoneColors b seen) col →
      colMatches (stoneColors b (visitNbrs b nbrs seen stack legal col).1)
        (visitNbrs b nbrs seen stack legal col).2.2.2 := by
  intro nbrs
  induction nbrs with
  | nil => intro seen stack legal col h; simpa [visitNbrs] using h
  | cons n rest ih =>
    intro seen stack legal col h
    simp only [visitNbrs]
    by_cases h1 : n ∈ seen
    · rw [if_pos h1]
      exact ih _ _ _ _ h
    · rw [if_neg h1]
      by_cases h2 : b.get_point n = 0
      · rw [if_pos h2]
        refine ih _ _ _ _ ?_
        rw [stoneColors_insert_empty b n seen h2]
        exact h
      · rw [if_neg h2]
        refine ih _ _ _ _ ?_
        rw [stoneColors_insert_stone b n seen (b.get_point n) rfl h2]
        exact colMatches_collide (stoneColors b seen) col (b.get_point n) h2 h

theorem visitNbrs_legal (b : Board) (legal0 : List Point)
    (hleg0 : ∀ q ∈ legal0, b.get_point q = 0) :
    ∀ (nbrs : List Point) (seen : Finset Point) (stack : List Point)
      (col : SeenTeams),
      (visitNbrs b nbrs seen stack (legal0.filter (fun q => q ∉ seen))
        col).2.2.1 =
      legal0.filter (fun q =>
        q ∉ (visitNbrs b nbrs seen stack (legal0.filter (fun q => q ∉ seen))
          col).1) := by
  intro nbrs
  induction nbrs with
  | nil => intro seen stack col; simp only [visitNbrs]
  | cons n rest ih =>
    intro seen stack col
    simp only [visitNbrs]
    by_cases h1 : n ∈ seen
    · simp only [if_pos h1]
      exact ih _ _ _
    · simp only [if_neg h1]
      by_cases h2 : b.get_point n = 0
      · simp only [if_pos h2]
        have hstep : (legal0.filter (fun q => q ∉ seen)).filter (fun x => x ≠ n) =
            legal0.filter (fun q => q ∉ insert n seen) := by
          rw [List.filter_filter]
          apply List.filter_congr
          intro a _
          by_cases han : a = n
          · subst han
            simp
          · by_cases has : a ∈ seen <;> simp [han, has]
        rw [hstep]
        exact ih (insert n seen) _ _
      · simp only [if_neg h2]
        have hstep : legal0.filter (fun q => q ∉ seen) =
            legal0.filter (fun q => q ∉ insert n seen) := by
          apply List.filter_congr
          intro a ha
          have han : a ≠ n := fun he => h2 (he ▸ hleg0 a ha)
          by_cases has : a ∈ seen <;> simp [han, has]
        rw [hstep]
        exact ih (insert n seen) _ _

theorem visitNbrs_card (b : Board) :
    ∀ (nbrs : List Point) (seen : Finset Point) (stack legal : List Point)
      (col : SeenTeams), (∀ r ∈ nbrs, r ∈ validFinset b) →
      2 * ((validFinset b \ (visitNbrs b nbrs seen stack legal col).1).card) +
        (visitNbrs b nbrs seen stack legal col).2.1.length ≤
      2 * ((validFinset b \ seen).card) + stack.length := by
  intro nbrs
  induction nbrs with
  | nil =>
    intro seen stack legal col _
    simp only [visitNbrs]
    exact Nat.le_refl _
  | cons n rest ih =>
    intro seen stack legal col hv
    simp only [visitNbrs]
    by_cases h1 : n ∈ seen
    · rw [if_pos h1]
      exact ih _ _ _ _ (fun r hr => hv r (List.mem_cons_of_mem n hr))
    · rw [if_neg h1]
      have hnv : n ∈ validFinset b := hv n (List.mem_cons_self n rest)
      have hmem : n ∈ validFinset b \ seen := Finset.mem_sdiff.2 ⟨hnv, h1⟩
      have hcard : (validFinset b \ insert n seen).card =
          (validFinset b \ seen).card - 1 := by
        rw [Finset.sdiff_insert, Finset.card_erase_of_mem hmem]
      have hpos : 0 < (validFinset b \ seen).card := Finset.card_pos.2 ⟨n, hmem⟩
      by_cases h2 : b.get_point n = 0
      · rw [if_pos h2]
        refine le_trans (ih _ _ _ _ (fun r hr => hv r (List.mem_cons_of_mem n hr))) ?_
        rw [hcard, List.length_append]
        simp only [List.length_singleton]
        omega
      · rw [if_neg h2]
        refine le_trans (ih _ _ _ _ (fun r hr => hv r (List.mem_cons_of_mem n hr))) ?_
        rw [hcard]
        omega

/-! ## The inner flood-fill loop -/

theorem bfs_end_facts (b : Board) (p0 : Point) (legal0 : List Point)
    (seen : Finset Point) (marked : List Point) (col : SeenTeams)
    (i1m : ∀ q ∈ marked, reach b p0 q)
    (i2 : ∀ q ∈ marked, ∀ r ∈ b.surrounding_points q, r ∈ seen)
    (i3 : ∀ r ∈ seen, b.get_point r = 0 → r ∈ marked)
    (i4 : colMatches (stoneColors b seen) col)
    (i6 : p0 ∈ marked)
    (i7 : ∀ r ∈ seen, ∃ q ∈ marked, r ∈ b.surrounding_points q)
    (i10 : ∀ q ∈ marked, q ∈ seen ∨ q = p0) :
    BfsPost b p0 legal0 marked (legal0.filter (fun q => q ∉ seen)) col seen := by
  refine ⟨i1m, ?_, i4, rfl, i3, i7, i2, i10⟩
  intro q hq
  refine reach_closed_subset b p0 (setOf (fun x => x ∈ marked)) i6 ?_ q hq
  intro x r hx hadj
  exact i3 r (i2 x hx r hadj.2.2.2.2) hadj.2.2.2.1

theorem bfsLoop_spec (b : Board) (p0 : Point) (legal0 : List Point)
    (hleg0 : ∀ q ∈ legal0, b.get_point q = 0)
    (hp0v : b.valid p0) (hp0e : b.get_point p0 = 0) :
    ∀ (fuel : Nat) (stack : List Point) (seen : Finset Point)
      (marked : List Point) (col : SeenTeams),
    (∀ q ∈ stack, reach b p0 q) →
    (∀ q ∈ marked, reach b p0 q) →
    (∀ q ∈ marked, ∀ r ∈ b.surrounding_points q, r ∈ seen) →
    (∀ r ∈ seen, b.get_point r = 0 → r ∈ stack ∨ r ∈ marked) →
    colMatches (stoneColors b seen) col →
    (p0 ∈ stack ∨ p0 ∈ marked) →
    (∀ r ∈ seen, ∃ q ∈ marked, r ∈ b.surrounding_points q) →
    (∀ q ∈ stack, q ∈ seen ∨ q = p0) →
    (∀ q ∈ marked, q ∈ seen ∨ q = p0) →
    (∀ r ∈ seen, r ∈ validFinset b) →
    2 * (validFinset b \ seen).card + stack.length ≤ fuel →
    BfsPost b p0 legal0
      (bfsLoop b fuel stack seen marked (legal0.filter (fun q => q ∉ seen)) col).1
      (bfsLoop b fuel stack seen marked (legal0.filter (fun q => q ∉ seen)) col).2.1
      (bfsLoop b fuel stack seen marked (legal0.filter (fun q => q ∉ seen)) col).2.2.1
      (bfsLoop b fuel stack seen marked (legal0.filter (fun q => q ∉ seen)) col).2.2.2 := by
  intro fuel
  induction fuel with
  | zero =>
    intro stack seen marked col i1s i1m i2 i3 i4 i6 i7 i8 i10 i9 hfuel
    have hstack : stack = [] := by
      cases stack with
      | nil => rfl
      | cons a l => simp at hfuel
    subst hstack
    simp only [bfsLoop]
    exact bfs_end_facts b p0 legal0 seen marked col i1m i2
      (fun r hr he => (i3 r hr he).resolve_left (by simp)) i4
      (i6.resolve_left (by simp)) i7 i10
  | succ fuel ih =>
    intro stack seen marked col i1s i1m i2 i3 i4 i6 i7 i8 i10 i9 hfuel
    cases stack with
    | nil =>
      simp only [bfsLoop]
      exact bfs_end_facts b p0 legal0 seen marked col i1m i2
        (fun r hr he => (i3 r hr he).resolve_left (by simp)) i4
        (i6.resolve_left (by simp)) i7 i10
    | cons q stack2 =>
      have hq0 : reach b p0 q := i1s q (List.mem_cons_self q stack2)
      obtain ⟨hqv, hqe⟩ := reach_props b p0 q hp0v hp0e hq0
      have hnbv : ∀ r ∈ b.surrounding_points q, r ∈ validFinset b := by
        intro r hr
        exact (mem_validFinset b r).2 (surrounding_mem_valid b q r hqv hr)
      have hlegal := visitNbrs_legal b legal0 hleg0 (b.surrounding_points q)
        seen stack2 col
      simp only [bfsLoop]
      rw [hlegal]
      refine ih _ _ _ _ ?_ ?_ ?_ ?_ ?_ ?_ ?_ ?_ ?_ ?_ ?_
      · -- stack invariant
        intro x hx
        rcases visitNbrs_stack_sub b _ _ _ _ _ x hx with h | ⟨hm, he, _⟩
        · exact i1s x (List.mem_cons_of_mem q h)
        · exact hq0.tail ⟨hqv, surrounding_mem_valid b q x hqv hm, hqe, he, hm⟩
      · -- marked invariant
        intro x hx
        rcases List.mem_append.1 hx with h | h
        · exact i1m x h
        · rw [List.mem_singleton] at h
          exact h ▸ hq0
      · -- neighbors of marked are seen
        intro x hx r hr
        rcases List.mem_append.1 hx with h | h
        · exact visitNbrs_seen_mono b _ _ _ _ _ r (i2 x h r hr)
        · rw [List.mem_singleton] at h
          subst h
          exact visitNbrs_nbrs_seen b _ _ _ _ _ r hr
      · -- empty seen points are on the stack or marked
        intro r hr he
        by_cases hrs : r ∈ seen
        · rcases i3 r hrs he with h | h
          · rcases List.mem_cons.1 h with h2 | h2
            · subst h2
              exact Or.inr (List.mem_append_right _ (List.mem_singleton_self r))
            · exact Or.inl (visitNbrs_stack_mono b _ _ _ _ _ r h2)
          · exact Or.inr (List.mem_append_left _ h)
        · exact Or.inl (visitNbrs_new_empty_stack b _ _ _ _ _ r hr hrs he)
      · -- collision accumulator
        exact visitNbrs_col b _ _ _ _ _ i4
      · -- p0 still tracked
        rcases i6 with h | h
        · rcases List.mem_cons.1 h with h2 | h2
          · subst h2
            exact Or.inr (List.mem_append_right _ (List.mem_singleton_self p0))
          · exact Or.inl (visitNbrs_stack_mono b _ _ _ _ _ p0 h2)
        · exact Or.inr (List.mem_append_left _ h)
      · -- every seen point neighbors a marked point
        intro r hr
        rcases visitNbrs_seen_sub b _ _ _ _ _ r hr with h | h
        · obtain ⟨x, hx, hxr⟩ := i7 r h
          exact ⟨x, List.mem_append_left _ hx, hxr⟩
        · exact ⟨q, List.mem_append_right _ (List.mem_singleton_self q), h⟩
      · -- stack elements are seen or the start
        intro x hx
        rcases visitNbrs_stack_sub b _ _ _ _ _ x hx with h | ⟨_, _, hs⟩
        · rcases i8 x (List.mem_cons_of_mem q h) with h2 | h2
          · exact Or.inl (visitNbrs_seen_mono b _ _ _ _ _ x h2)
          · exact Or.inr h2
        · exact Or.inl hs
      · -- marked elements are seen or the start
        intro x hx
        rcases List.mem_append.1 hx with h | h
        · rcases i10 x h with h2 | h2
          · exact Or.inl (visitNbrs_seen_mono b _ _ _ _ _ x h2)
          · exact Or.inr h2
        · rw [List.mem_singleton] at h
          subst h
          rcases i8 x (List.mem_cons_self x stack2) with h2 | h2
          · exact Or.inl (visitNbrs_seen_mono b _ _ _ _ _ x h2)
          · exact Or.inr h2
      · -- seen points are valid
        intro r hr
        rcases visitNbrs_seen_sub b _ _ _ _ _ r hr with h | h
        · exact i9 r h
        · exact hnbv r h
      · -- fuel accounting
        have hcard := visitNbrs_card b (b.surrounding_points q) seen stack2
          (legal0.filter (fun x => x ∉ seen)) col hnbv
        have hlen : (q :: stack2).length = stack2.length + 1 := by
          simp
        omega

/-! ## Recoloring folds and board shapes -/

theorem get_point_eq_of_coordIdx_eq (b : Board) (p q : Point)
    (h : b.coordIdx p = b.coordIdx q) : b.get_point p = b.get_point q := by
  simp only [Board.get_point, h]

theorem foldl_set_point_shape (c : Nat) :
    ∀ (l : List Point) (b : Board),
    (l.foldl (fun bb r => bb.set_point r c) b).width = b.width ∧
    (l.foldl (fun bb r => bb.set_point r c) b).height = b.height ∧
    (l.foldl (fun bb r => bb.set_point r c) b).toroidal = b.toroidal ∧
    (l.foldl (fun bb r => bb.set_point r c) b).points.length = b.points.length := by
  intro l
  induction l with
  | nil => intro b; exact ⟨rfl, rfl, rfl, rfl⟩
  | cons r rest ih =>
    intro b
    rw [List.foldl_cons]
    obtain ⟨h1, h2, h3, h4⟩ := ih (b.set_point r c)
    exact ⟨h1, h2, h3, by rw [h4, set_point_points_length]⟩

theorem foldl_set_point_get_ne (c : Nat) :
    ∀ (l : List Point) (b : Board) (q : Point),
    (∀ m ∈ l, b.coordIdx m ≠ b.coordIdx q) →
    (l.foldl (fun bb r => bb.set_point r c) b).get_point q = b.get_point q := by
  intro l
  induction l with
  | nil => intro b q _; rfl
  | cons r rest ih =>
    intro b q h
    rw [List.foldl_cons]
    rw [ih (b.set_point r c) q (fun m hm => h m (List.mem_cons_of_mem r hm))]
    exact set_point_get_ne b r q c (h r (List.mem_cons_self r rest))

theorem foldl_set_point_get_mem (c : Nat) :
    ∀ (l : List Point) (b : Board) (q : Point), q ∈ l →
    (∀ m ∈ l, b.valid m) → b.points.length = b.width * b.height →
    (l.foldl (fun bb r => bb.set_point r c) b).get_point q = c := by
  intro l
  induction l with
  | nil => intro b q h; simp at h
  | cons r rest ih =>
    intro b q hq hv hlen
    rw [List.foldl_cons]
    by_cases hqr : q ∈ rest
    · exact ih (b.set_point r c) q hqr
        (fun m hm => hv m (List.mem_cons_of_mem r hm))
        (by rw [set_point_points_length]; exact hlen)
    · have hq2 : q = r := by
        rcases List.mem_cons.1 hq with h | h
        · exact h
        · exact absurd h hqr
      subst hq2
      rw [foldl_set_point_get_ne c rest (b.set_point q c) q ?hne]
      · exact set_point_get_self b q c
          (coordIdx_lt b q (hv q (List.mem_cons_self q rest)) hlen)
      case hne =>
        intro m hm
        have hmv : b.valid m := hv m (List.mem_cons_of_mem q hm)
        have hqv : b.valid q := hv q (List.mem_cons_self q rest)
        intro he
        exact hqr (coordIdx_inj b m q hmv hqv he ▸ hm)

theorem stamp_groups_shape (board : Board) (groups : List Group) :
    (stamp_groups board groups).width = board.width ∧
    (stamp_groups board groups).height = board.height ∧
    (stamp_groups board groups).toroidal = board.toroidal ∧
    (stamp_groups board groups).points.length = board.width * board.height := by
  unfold stamp_groups
  have hgen : ∀ (gs : List Group) (b : Board),
      (gs.foldl (fun b2 g => if g.alive then
        g.points.foldl (fun b3 p => b3.set_point p g.team) b2 else b2) b).width =
        b.width ∧
      (gs.foldl (fun b2 g => if g.alive then
        g.points.foldl (fun b3 p => b3.set_point p g.team) b2 else b2) b).height =
        b.height ∧
      (gs.foldl (fun b2 g => if g.alive then
        g.points.foldl (fun b3 p => b3.set_point p g.team) b2 else b2)
          b).toroidal = b.toroidal ∧
      (gs.foldl (fun b2 g => if g.alive then
        g.points.foldl (fun b3 p => b3.set_point p g.team) b2 else b2)
          b).points.length = b.points.length := by
    intro gs
    induction gs with
    | nil => intro b; exact ⟨rfl, rfl, rfl, rfl⟩
    | cons g rest ih =>
      intro b
      rw [List.foldl_cons]
      obtain ⟨h1, h2, h3, h4⟩ := ih (if g.alive then
        g.points.foldl (fun b3 p => b3.set_point p g.team) b else b)
      by_cases hg : g.alive
      · rw [if_pos hg] at h1 h2 h3 h4
        obtain ⟨g1, g2, g3, g4⟩ := foldl_set_point_shape g.team g.points b
        rw [if_pos hg]
        exact ⟨h1.trans g1, h2.trans g2, h3.trans g3, h4.trans g4⟩
      · rw [if_neg hg] at h1 h2 h3 h4
        rw [if_neg hg]
        exact ⟨h1, h2, h3, h4⟩
  obtain ⟨h1, h2, h3, h4⟩ := hgen groups
    (Board.empty board.width board.height board.toroidal)
  refine ⟨h1, h2, h3, ?_⟩
  rw [h4]
  simp [Board.empty]

/-! ## The initial candidate list -/

theorem mem_initialLegal (b : Board) (hlen : b.points.length = b.width * b.height)
    (q : Point) :
    q ∈ initialLegal b ↔ b.valid q ∧ b.get_point q = 0 := by
  unfold initialLegal
  rw [List.mem_filterMap]
  constructor
  · rintro ⟨⟨i, c⟩, hmem, hf⟩
    rw [List.mem_enum_iff_getElem?] at hmem
    by_cases hc : c = 0
    · rw [if_pos hc] at hf
      unfold Board.idx_to_coord at hf
      by_cases hi : i < b.width * b.height
      · rw [if_pos hi] at hf
        injection hf with hf
        subst hf
        have hw : 0 < b.width := by
          rcases Nat.eq_zero_or_pos b.width with h | h
          · rw [h] at hi; simp at hi
          · exact h
        have hv : b.valid (i % b.width, i / b.width) := by
          refine ⟨Nat.mod_lt _ hw, ?_⟩
          show i / b.width < b.height
          rw [Nat.div_lt_iff_lt_mul hw]
          exact lt_of_lt_of_le hi (le_of_eq (Nat.mul_comm _ _))
        refine ⟨hv, ?_⟩
        have hidx : b.coordIdx (i % b.width, i / b.width) = i := by
          show i / b.width * b.width + i % b.width = i
          rw [Nat.mul_comm (i / b.width) b.width]
          exact Nat.div_add_mod i b.width
        unfold Board.get_point
        rw [hidx, hmem]
        subst hc
        rfl
      · rw [if_neg hi] at hf
        exact absurd hf (by simp)
    · rw [if_neg hc] at hf
      exact absurd hf (by simp)
  · rintro ⟨hv, he⟩
    have hidx : b.coordIdx q < b.points.length := coordIdx_lt b q hv hlen
    have hsome : b.points[b.coordIdx q]? =
        some (b.points.get ⟨b.coordIdx q, hidx⟩) := by
      rw [List.getElem?_eq_getElem hidx]
      rfl
    have hv0 : b.points.get ⟨b.coordIdx q, hidx⟩ = 0 := by
      unfold Board.get_point at he
      rw [hsome] at he
      exact he
    have hsome0 : b.points[b.coordIdx q]? = some 0 := by
      rw [hsome, hv0]
    refine ⟨(b.coordIdx q, 0), ?_, ?_⟩
    · rw [List.mem_enum_iff_getElem?]
      exact hsome0
    · rw [if_pos rfl]
      unfold Board.idx_to_coord
      rw [if_pos (by rw [← hlen]; exact hidx)]
      have hw : 0 < b.width := by
        obtain ⟨hx, _⟩ := hv
        omega

      have h1 : b.coordIdx q % b.width = q.1 := by
        show (q.2 * b.width + q.1) % b.width = q.1
        rw [Nat.add_comm, Nat.add_mul_mod_self_right, Nat.mod_eq_of_lt hv.1]
      have h2 : b.coordIdx q / b.width = q.2 := by
        show (q.2 * b.width + q.1) / b.width = q.2
        rw [Nat.add_comm, Nat.add_mul_div_right _ _ hw, Nat.div_eq_of_lt hv.1,
          Nat.zero_add]
      rw [h1, h2]

theorem nodup_initialLegal (b : Board) : (initialLegal b).Nodup := by
  unfold initialLegal
  apply List.Nodup.filterMap
  · rintro ⟨i, c⟩ ⟨i2, c2⟩ q hq hq2
    simp only [Option.mem_def] at hq hq2
    by_cases hc : c = 0
    · subst hc
      by_cases hc2 : c2 = 0
      · subst hc2
        rw [if_pos rfl] at hq hq2
        unfold Board.idx_to_coord at hq hq2
        by_cases hi : i < b.width * b.height
        · by_cases hi2 : i2 < b.width * b.height
          · rw [if_pos hi] at hq
            rw [if_pos hi2] at hq2
            injection hq with hq
            injection hq2 with hq2
            have hw : 0 < b.width := by
              rcases Nat.eq_zero_or_pos b.width with h | h
              · rw [h] at hi; simp at hi
              · exact h
            have hrec : i = b.width * (i / b.width) + i % b.width :=
              (Nat.div_add_mod i b.width).symm
            have hrec2 : i2 = b.width * (i2 / b.width) + i2 % b.width :=
              (Nat.div_add_mod i2 b.width).symm
            have hpair : (i % b.width, i / b.width) =
                (i2 % b.width, i2 / b.width) := hq.trans hq2.symm
            have hx : i % b.width = i2 % b.width := congrArg Prod.fst hpair
            have hy : i / b.width = i2 / b.width := congrArg Prod.snd hpair
            have : i = i2 := by
              rw [hrec, hrec2, hx, hy]
            subst this
            rfl
          · rw [if_neg hi2] at hq2
            exact absurd hq2 (by simp)
        · rw [if_neg hi] at hq
          exact absurd hq (by simp)
      · rw [if_neg hc2] at hq2
        exact absurd hq2 (by simp)
    · rw [if_neg hc] at hq
      exact absurd hq (by simp)
  · have hmap : (List.map Prod.fst b.points.enum).Nodup := by
      rw [List.enum_map_fst]
      exact List.nodup_range _
    exact hmap.of_map Prod.fst

/-! ## The outer scoring loop -/

theorem territoryAnswer_congr (S b b2 : Board) (q : Point)
    (h : b2.get_point q = b.get_point q) (ha : territoryAnswer S b q) :
    territoryAnswer S b2 q := by
  obtain ⟨h1, h2, h3⟩ := ha
  refine ⟨fun t ht => ?_, fun ht => ?_, fun ht => ?_⟩
  · rw [h]; exact h1 t ht
  · rw [h]; exact h2 ht
  · rw [h]; exact h3 ht

theorem stoneColors_empty (b : Board) : stoneColors b ∅ = ∅ := by
  apply Set.ext
  intro c
  constructor
  · rintro ⟨hc, r, hr, _⟩
    simp at hr
  · intro h
    simp at h

theorem scoreLoop_spec (S : Board) :
    ∀ (fuel : Nat) (b : Board) (legal : List Point),
    legal.length ≤ fuel →
    b.width = S.width → b.height = S.height → b.toroidal = S.toroidal →
    b.points.length = b.width * b.height →
    (∀ r, S.get_point r ≠ 0 → b.get_point r = S.get_point r) →
    legal.Nodup →
    (∀ x ∈ legal, S.valid x ∧ S.get_point x = 0 ∧ b.get_point x = 0) →
    (∀ x ∈ legal, ∀ r, reach S x r → r ∈ legal) →
    (∀ x, S.valid x → S.get_point x = 0 → x ∉ legal → territoryAnswer S b x) →
    ∀ q, S.valid q → S.get_point q = 0 →
      territoryAnswer S (scoreLoop fuel b legal) q := by
  intro fuel
  induction fuel with
  | zero =>
    intro b legal hlen hw hh ht hblen hO2 hnd hO3 hO4 hO5 q hqv hqe
    have hnil : legal = [] := List.length_eq_zero.1 (Nat.le_zero.1 hlen)
    subst hnil
    exact hO5 q hqv hqe (by simp)
  | succ fuel ih =>
    intro b legal hlen hw hh ht hblen hO2 hnd hO3 hO4 hO5 q hqv hqe
    cases hlast : legal.getLast? with
    | none =>
      have hnil : legal = [] := by
        rw [← List.getLast?_eq_none_iff]
        exact hlast
      subst hnil
      exact hO5 q hqv hqe (by simp)
    | some p =>
      obtain ⟨legal0, rfl⟩ := List.getLast?_eq_some_iff.1 hlast
      have hpmem : p ∈ legal0 ++ [p] :=
        List.mem_append_right _ (List.mem_singleton_self p)
      obtain ⟨hpvS, hpeS, hpeb⟩ := hO3 p hpmem
      have hpvb : b.valid p := (valid_congr b S hw hh p).2 hpvS
      have hpnl : p ∉ legal0 := by
        rcases List.nodup_append.1 hnd with ⟨_, _, hdisj⟩
        intro hmem
        exact hdisj hmem (List.mem_singleton_self p)
      have hleg0 : ∀ x ∈ legal0, b.get_point x = 0 := fun x hx =>
        (hO3 x (List.mem_append_left _ hx)).2.2
      have hfilter0 : legal0.filter (fun x => x ∉ (∅ : Finset Point)) = legal0 :=
        List.filter_eq_self.2 (fun a _ => by simp)
      have hVcard : (validFinset b).card = b.width * b.height := by
        unfold validFinset
        rw [Finset.card_product, Finset.card_range, Finset.card_range]
      have hpost := bfsLoop_spec b p legal0 hleg0 hpvb hpeb
        (2 * b.width * b.height + 1) [p] ∅ [] .zero
        (fun x hx => by
          rw [List.mem_singleton] at hx
          subst hx
          exact Relation.ReflTransGen.refl)
        (by simp)
        (by simp)
        (by simp)
        (by
          show colMatches (stoneColors b ∅) SeenTeams.zero
          rw [stoneColors_empty]
          rfl)
        (Or.inl (List.mem_singleton_self p))
        (by simp)
        (fun x hx => by rw [List.mem_singleton] at hx; exact Or.inr hx)
        (by simp)
        (by simp)
        (by
          rw [Finset.sdiff_empty, hVcard, List.length_singleton,
            Nat.mul_assoc])
      rw [hfilter0] at hpost
      obtain ⟨c1a, c1b, c2, c3, c4, c5, c6, c7⟩ := hpost
      have hcompS : ∀ r, reach S p r → b.get_point r = 0 := fun r hr =>
        (hO3 r (hO4 p hpmem r hr)).2.2
      have hriff := reach_congr S b hw hh ht hO2 p hcompS
      have hbord := borderColors_congr S b hw hh ht hO2 p hpvS hpeS hcompS
      have hsc : stoneColors b
          (bfsLoop b (2 * b.width * b.height + 1) [p] ∅ [] legal0
            SeenTeams.zero).2.2.2 = borderColors b p := by
        apply Set.ext
        intro c
        constructor
        · rintro ⟨hc, r, hr, hget⟩
          obtain ⟨x, hx, hxr⟩ := c5 r hr
          exact ⟨hc, x, r, c1a x hx, hxr, hget⟩
        · rintro ⟨hc, x, r, hx, hmem, hget⟩
          exact ⟨hc, r, c6 x (c1b x hx) r hmem, hget⟩
      have hseen_iff : ∀ x ∈ legal0,
          (x ∈ (bfsLoop b (2 * b.width * b.height + 1) [p] ∅ [] legal0
            SeenTeams.zero).2.2.2 ↔ reach S p x) := by
        intro x hx
        constructor
        · intro hxs
          exact (hriff x).2 (c1a x (c4 x hxs (hleg0 x hx)))
        · intro hxr
          rcases c7 x (c1b x ((hriff x).1 hxr)) with h | h
          · exact h
          · exact absurd (h ▸ hx) hpnl
      have hMleg : ∀ m ∈ (bfsLoop b (2 * b.width * b.height + 1) [p] ∅ []
          legal0 SeenTeams.zero).1, m ∈ legal0 ++ [p] := fun m hm =>
        hO4 p hpmem m ((hriff m).2 (c1a m hm))
      have hMvalidb : ∀ m ∈ (bfsLoop b (2 * b.width * b.height + 1) [p] ∅ []
          legal0 SeenTeams.zero).1, b.valid m := fun m hm =>
        (reach_props b p m hpvb hpeb (c1a m hm)).1
      have hMSempty : ∀ m ∈ (bfsLoop b (2 * b.width * b.height + 1) [p] ∅ []
          legal0 SeenTeams.zero).1, S.get_point m = 0 := by
        intro m hm
        by_contra hne
        have hbm : b.get_point m = 0 := (reach_props b p m hpvb hpeb (c1a m hm)).2
        rw [hO2 m hne] at hbm
        exact hne hbm
      -- facts about the new candidate list
      have hlen2 : (bfsLoop b (2 * b.width * b.height + 1) [p] ∅ [] legal0
          SeenTeams.zero).2.1.length ≤ fuel := by
        rw [c3]
        have h1 := List.length_filter_le (fun x =>
          decide (x ∉ (bfsLoop b (2 * b.width * b.height + 1) [p] ∅ [] legal0
            SeenTeams.zero).2.2.2)) legal0
        have h2 : (legal0 ++ [p]).length = legal0.length + 1 := by simp
        omega
      have hnd2 : (bfsLoop b (2 * b.width * b.height + 1) [p] ∅ [] legal0
          SeenTeams.zero).2.1.Nodup := by
        rw [c3]
        exact ((List.nodup_append.1 hnd).1).filter _
      have hmem2 : ∀ x, x ∈ (bfsLoop b (2 * b.width * b.height + 1) [p] ∅ []
          legal0 SeenTeams.zero).2.1 ↔
          (x ∈ legal0 ∧ ¬ reach S p x) := by
        intro x
        rw [c3, List.mem_filter]
        constructor
        · rintro ⟨hx, hdec⟩
          refine ⟨hx, fun hr => ?_⟩
          rw [decide_eq_true_iff] at hdec
          exact hdec ((hseen_iff x hx).2 hr)
        · rintro ⟨hx, hnr⟩
          refine ⟨hx, ?_⟩
          rw [decide_eq_true_iff]
          intro hs
          exact hnr ((hseen_iff x hx).1 hs)
      have hleg2_nm : ∀ x ∈ (bfsLoop b (2 * b.width * b.height + 1) [p] ∅ []
          legal0 SeenTeams.zero).2.1,
          x ∉ (bfsLoop b (2 * b.width * b.height + 1) [p] ∅ [] legal0
            SeenTeams.zero).1 := by
        intro x hx hmem
        obtain ⟨hx0, hnr⟩ := (hmem2 x).1 hx
        exact hnr ((hriff x).2 (c1a x hmem))
      have hO42 : ∀ x ∈ (bfsLoop b (2 * b.width * b.height + 1) [p] ∅ []
          legal0 SeenTeams.zero).2.1, ∀ r, reach S x r →
          r ∈ (bfsLoop b (2 * b.width * b.height + 1) [p] ∅ [] legal0
            SeenTeams.zero).2.1 := by
        intro x hx r hr
        obtain ⟨hx0, hnr⟩ := (hmem2 x).1 hx
        have hrleg : r ∈ legal0 ++ [p] :=
          hO4 x (List.mem_append_left _ hx0) r hr
        have hrleg0 : r ∈ legal0 := by
          rcases List.mem_append.1 hrleg with h | h
          · exact h
          · rw [List.mem_singleton] at h
            exact absurd (h ▸ reach_symm S x r hr) hnr
        exact (hmem2 r).2 ⟨hrleg0, fun hpr => hnr (hpr.trans (reach_symm S x r hr))⟩
      -- classification of every point the fill resolved in this round
      have hresolved : ∀ x, x ∈ legal0 ++ [p] →
          x ∉ (bfsLoop b (2 * b.width * b.height + 1) [p] ∅ [] legal0
            SeenTeams.zero).2.1 → reach S p x := by
        intro x hx hnx
        rcases List.mem_append.1 hx with h | h
        · rcases Classical.em (reach S p x) with h2 | h2
          · exact h2
          · exact absurd ((hmem2 x).2 ⟨h, h2⟩) hnx
        · rw [List.mem_singleton] at h
          subst h
          exact Relation.ReflTransGen.refl
      -- now unfold one round of the outer loop
      have hunfold : scoreLoop (fuel + 1) b (legal0 ++ [p]) =
          scoreLoop fuel
            (match (bfsLoop b (2 * b.width * b.height + 1) [p] ∅ [] legal0
                SeenTeams.zero).2.2.1 with
              | SeenTeams.one c =>
                (bfsLoop b (2 * b.width * b.height + 1) [p] ∅ [] legal0
                  SeenTeams.zero).1.foldl (fun bb x => bb.set_point x c) b
              | _ => b)
            (bfsLoop b (2 * b.width * b.height + 1) [p] ∅ [] legal0
              SeenTeams.zero).2.1 := by
        simp only [scoreLoop]
        rw [hlast, List.dropLast_concat]
      rw [hunfold]
      generalize hcol : (bfsLoop b (2 * b.width * b.height + 1) [p] ∅ [] legal0
          SeenTeams.zero).2.2.1 = colv
      cases colv with
      | one c =>
        -- the region is painted color c
        have hcolor : stoneColors b (bfsLoop b (2 * b.width * b.height + 1)
            [p] ∅ [] legal0 SeenTeams.zero).2.2.2 = {c} := by
          have := c2
          rw [hcol] at this
          exact this
        have hbordc : borderColors S p = {c} := by
          rw [hbord, ← hsc, hcolor]
        have hgetne : ∀ r2 : Point,
            (∀ m ∈ (bfsLoop b (2 * b.width * b.height + 1) [p] ∅ [] legal0
              SeenTeams.zero).1, b.coordIdx m ≠ b.coordIdx r2) →
            ((bfsLoop b (2 * b.width * b.height + 1) [p] ∅ [] legal0
              SeenTeams.zero).1.foldl (fun bb x => bb.set_point x c)
                b).get_point r2 = b.get_point r2 := by
          intro r2 hne
          exact foldl_set_point_get_ne c _ b r2 hne
        have hb2shape := foldl_set_point_shape c
          (bfsLoop b (2 * b.width * b.height + 1) [p] ∅ [] legal0
            SeenTeams.zero).1 b
        have hO2' : ∀ r2, S.get_point r2 ≠ 0 →
            ((bfsLoop b (2 * b.width * b.height + 1) [p] ∅ [] legal0
              SeenTeams.zero).1.foldl (fun bb x => bb.set_point x c)
                b).get_point r2 = S.get_point r2 := by
          intro r2 hr2
          rw [hgetne r2 ?hne]
          · exact hO2 r2 hr2
          case hne =>
            intro m hm heq
            have hSm : S.get_point m = 0 := hMSempty m hm
            have hSeq : S.get_point m = S.get_point r2 := by
              apply get_point_eq_of_coordIdx_eq
              rw [← coordIdx_congr b S hw m, ← coordIdx_congr b S hw r2]
              exact heq
            rw [← hSeq] at hr2
            exact hr2 hSm
        have hunmarked_get : ∀ x : Point, b.valid x →
            x ∉ (bfsLoop b (2 * b.width * b.height + 1) [p] ∅ [] legal0
              SeenTeams.zero).1 →
            ((bfsLoop b (2 * b.width * b.height + 1) [p] ∅ [] legal0
              SeenTeams.zero).1.foldl (fun bb y => bb.set_point y c)
                b).get_point x = b.get_point x := by
          intro x hxv hxnm
          apply hgetne
          intro m hm heq
          exact hxnm (coordIdx_inj b m x (hMvalidb m hm) hxv heq ▸ hm)
        refine ih _ _ hlen2 (hb2shape.1.trans hw) (hb2shape.2.1.trans hh)
          (hb2shape.2.2.1.trans ht)
          (by rw [hb2shape.2.2.2, hb2shape.1, hb2shape.2.1]; exact hblen) hO2' hnd2
          ?_ hO42 ?_ q hqv hqe
        · -- O3 for the new candidate list
          intro x hx
          obtain ⟨hx0, _⟩ := (hmem2 x).1 hx
          obtain ⟨ha, hb', hc'⟩ := hO3 x (List.mem_append_left _ hx0)
          refine ⟨ha, hb', ?_⟩
          rw [hunmarked_get x ((valid_congr b S hw hh x).2 ha)
            (hleg2_nm x hx)]
          exact hc'
        · -- O5 for the recolored board
          intro x hxv hxe hxnl
          by_cases hxleg : x ∈ legal0 ++ [p]
          · have hxr : reach S p x := hresolved x hxleg hxnl
            have hxm : x ∈ (bfsLoop b (2 * b.width * b.height + 1) [p] ∅ []
                legal0 SeenTeams.zero).1 := c1b x ((hriff x).1 hxr)
            have hbordx : borderColors S x = {c} := by
              rw [borderColors_eq_of_reach S p x hxr]
              exact hbordc
            have hget : ((bfsLoop b (2 * b.width * b.height + 1) [p] ∅ []
                legal0 SeenTeams.zero).1.foldl (fun bb y => bb.set_point y c)
                  b).get_point x = c :=
              foldl_set_point_get_mem c _ b x hxm hMvalidb hblen
            refine ⟨fun t htb => ?_, fun htb => ?_, fun htb => ?_⟩
            · rw [htb] at hbordx
              rw [hget, Set.singleton_eq_singleton_iff.1 hbordx]
            · rw [htb] at hbordx
              exact absurd (hbordx ▸ Set.mem_singleton c) (by simp)
            · obtain ⟨t1, t2, ht1, ht2, hne⟩ := htb
              rw [hbordx] at ht1 ht2
              exact absurd (ht1.trans ht2.symm) hne
          · have hold := hO5 x hxv hxe hxleg
            refine territoryAnswer_congr S b _ x ?_ hold
            refine hunmarked_get x ((valid_congr b S hw hh x).2 hxv) ?_
            intro hm
            exact hxleg (hMleg x hm)
      | zero =>
        have hcolor : stoneColors b (bfsLoop b (2 * b.width * b.height + 1)
            [p] ∅ [] legal0 SeenTeams.zero).2.2.2 = ∅ := by
          have := c2
          rw [hcol] at this
          exact this
        have hbordc : borderColors S p = ∅ := by
          rw [hbord, ← hsc, hcolor]
        refine ih _ _ hlen2 hw hh ht hblen hO2 hnd2 ?_ hO42 ?_ q hqv hqe
        · intro x hx
          obtain ⟨hx0, _⟩ := (hmem2 x).1 hx
          exact hO3 x (List.mem_append_left _ hx0)
        · intro x hxv hxe hxnl
          by_cases hxleg : x ∈ legal0 ++ [p]
          · have hxr : reach S p x := hresolved x hxleg hxnl
            have hbordx : borderColors S x = ∅ := by
              rw [borderColors_eq_of_reach S p x hxr]
              exact hbordc
            have hget : b.get_point x = 0 := (hO3 x hxleg).2.2
            refine ⟨fun t htb => ?_, fun _ => hget, fun _ => hget⟩
            · rw [htb] at hbordx
              exact absurd (hbordx ▸ Set.mem_singleton t) (by simp)
          · exact hO5 x hxv hxe hxleg
      | many =>
        have hcolor : ∃ c1 c2, c1 ∈ stoneColors b
            (bfsLoop b (2 * b.width * b.height + 1) [p] ∅ [] legal0
              SeenTeams.zero).2.2.2 ∧ c2 ∈ stoneColors b
            (bfsLoop b (2 * b.width * b.height + 1) [p] ∅ [] legal0
              SeenTeams.zero).2.2.2 ∧ c1 ≠ c2 := by
          have := c2
          rw [hcol] at this
          exact this
        have hbordc : ∃ c1 c2, c1 ∈ borderColors S p ∧ c2 ∈ borderColors S p ∧
            c1 ≠ c2 := by
          rw [hbord, ← hsc]
          exact hcolor
        refine ih _ _ hlen2 hw hh ht hblen hO2 hnd2 ?_ hO42 ?_ q hqv hqe
        · intro x hx
          obtain ⟨hx0, _⟩ := (hmem2 x).1 hx
          exact hO3 x (List.mem_append_left _ hx0)
        · intro x hxv hxe hxnl
          by_cases hxleg : x ∈ legal0 ++ [p]
          · have hxr : reach S p x := hresolved x hxleg hxnl
            have hbordx : ∃ c1 c2, c1 ∈ borderColors S x ∧
                c2 ∈ borderColors S x ∧ c1 ≠ c2 := by
              rw [borderColors_eq_of_reach S p x hxr]
              exact hbordc
            have hget : b.get_point x = 0 := (hO3 x hxleg).2.2
            refine ⟨fun t htb => ?_, fun _ => hget, fun _ => hget⟩
            · obtain ⟨t1, t2, ht1, ht2, hne⟩ := hbordx
              rw [htb] at ht1 ht2
              exact absurd (ht1.trans ht2.symm) hne
          · exact hO5 x hxv hxe hxleg

/-! ## C1: the single-color-border territory rule -/

/-- C1: in the board returned by `score_board`, every point of a maximal
connected empty region of the stamped board (alive groups stamped, dead
groups vacated; connectivity via the board's neighbor relation, honoring
the toroidal wrap) is attributed to team `t` when the region's bordering
non-empty points carry exactly one distinct team color `t`, and remains
neutral (color 0) when the region borders zero or at least two distinct
team colors. -/
theorem score_board_single_color_border (board : Board) (groups : List Group)
    (p : Point) (hv : (stamp_groups board groups).valid p)
    (he : (stamp_groups board groups).get_point p = 0) :
    (∀ t, borderColors (stamp_groups board groups) p = {t} →
      (score_board board groups).get_point p = t)
    ∧ (borderColors (stamp_groups board groups) p = ∅ →
      (score_board board groups).get_point p = 0)
    ∧ ((∃ t1 t2, t1 ∈ borderColors (stamp_groups board groups) p ∧
        t2 ∈ borderColors (stamp_groups board groups) p ∧ t1 ≠ t2) →
      (score_board board groups).get_point p = 0) := by
  have hshape := stamp_groups_shape board groups
  have hblen : (stamp_groups board groups).points.length =
      (stamp_groups board groups).width * (stamp_groups board groups).height := by
    rw [hshape.2.2.2, hshape.1, hshape.2.1]
  have hmem := mem_initialLegal (stamp_groups board groups) hblen
  have hans := scoreLoop_spec (stamp_groups board groups)
    (initialLegal (stamp_groups board groups)).length
    (stamp_groups board groups) (initialLegal (stamp_groups board groups))
    (le_refl _) rfl rfl rfl hblen (fun r _ => rfl) (nodup_initialLegal _)
    (fun x hx => ⟨((hmem x).1 hx).1, ((hmem x).1 hx).2, ((hmem x).1 hx).2⟩)
    (fun x hx r hr =>
      (hmem r).2 ⟨(reach_props _ x r ((hmem x).1 hx).1 ((hmem x).1 hx).2 hr).1,
        (reach_props _ x r ((hmem x).1 hx).1 ((hmem x).1 hx).2 hr).2⟩)
    (fun x hxv hxe hxn => absurd ((hmem x).2 ⟨hxv, hxe⟩) hxn)
    p hv he
  exact hans

theorem score_board_single_color_border_witness :
    (∀ t, borderColors (stamp_groups ⟨4, 1, true, [1, 0, 0, 0]⟩
        [⟨[(0, 0)], 1, true⟩]) (1, 0) = {t} →
      (score_board ⟨4, 1, true, [1, 0, 0, 0]⟩
        [⟨[(0, 0)], 1, true⟩]).get_point (1, 0) = t)
    ∧ (borderColors (stamp_groups ⟨4, 1, true, [1, 0, 0, 0]⟩
        [⟨[(0, 0)], 1, true⟩]) (1, 0) = ∅ →
      (score_board ⟨4, 1, true, [1, 0, 0, 0]⟩
        [⟨[(0, 0)], 1, true⟩]).get_point (1, 0) = 0)
    ∧ ((∃ t1 t2, t1 ∈ borderColors (stamp_groups ⟨4, 1, true, [1, 0, 0, 0]⟩
        [⟨[(0, 0)], 1, true⟩]) (1, 0) ∧
        t2 ∈ borderColors (stamp_groups ⟨4, 1, true, [1, 0, 0, 0]⟩
          [⟨[(0, 0)], 1, true⟩]) (1, 0) ∧ t1 ≠ t2) →
      (score_board ⟨4, 1, true, [1, 0, 0, 0]⟩
        [⟨[(0, 0)], 1, true⟩]).get_point (1, 0) = 0) :=
  score_board_single_color_border ⟨4, 1, true, [1, 0, 0, 0]⟩
    [⟨[(0, 0)], 1, true⟩] (1, 0) (by decide) (by decide)

end Scoring
